import Mathlib

set_option maxHeartbeats 1000000

/-!
Verification development for the claude-to-kiro converter and bundle writer
(converters/claude-to-kiro.ts, writers/kiro.ts, types/kiro.ts).

Strings are modelled as Lean `String`/`List Char`.  JavaScript's `\s` and
`String.prototype.trim` are modelled over the ASCII whitespace characters
(space, tab, newline, carriage return, vertical tab, form feed); Unicode
case mapping of `toLowerCase` is modelled per-character by `Char.toLower`
(ASCII case mapping).  JavaScript regular-expression replacement is modelled
by explicit left-to-right scanners that mirror each pattern's lookbehind,
word-boundary, lookahead and greediness behaviour.
-/

/-- ASCII whitespace, the model of the JavaScript regex class backslash-s. -/
def isWsChar (c : Char) : Bool :=
  c = ' ' || c = '\t' || c = '\n' || c = '\r' || c = '\x0b' || c = '\x0c'

/-- JavaScript regex word character: [A-Za-z0-9_]. -/
def isWordChar (c : Char) : Bool :=
  c.isAlpha || c.isDigit || c = '_'

/-- Lowercase ASCII letter. -/
def isLowerAlpha (c : Char) : Bool :=
  'a' ≤ c && c ≤ 'z'

/-- ASCII letter, the regex class [a-zA-Z]. -/
def isAsciiAlpha (c : Char) : Bool :=
  ('a' ≤ c && c ≤ 'z') || ('A' ≤ c && c ≤ 'Z')

/-- Characters legal in a normalized identifier: the regex class [a-z0-9_-]. -/
def goodChar (c : Char) : Bool :=
  isLowerAlpha c || c.isDigit || c = '_' || c = '-'

/-- The backtick character (used by the slash-reference pattern). -/
def backtickChar : Char := Char.ofNat 96

/-- The single-quote character (used by the path-rewrite lookbehind). -/
def squoteChar : Char := Char.ofNat 39

/-- Model of JavaScript String.prototype.trim (ASCII whitespace). -/
def trimChars (l : List Char) : List Char :=
  ((l.dropWhile isWsChar).reverse.dropWhile isWsChar).reverse

/-- Model of JavaScript String.prototype.trim on a String. -/
def trimStr (s : String) : String :=
  ⟨trimChars s.data⟩

/-- Replace every maximal run of characters satisfying p by the single
character rep; models a global regex replace of a character-class plus. -/
def replRunsGo (p : Char → Bool) (rep : Char) : Bool → List Char → List Char
  | _, [] => []
  | inRun, c :: cs =>
    if p c then
      if inRun then replRunsGo p rep true cs
      else rep :: replRunsGo p rep true cs
    else c :: replRunsGo p rep false cs

/-- Replace maximal runs satisfying p with the character rep. -/
def replRuns (p : Char → Bool) (rep : Char) (l : List Char) : List Char :=
  replRunsGo p rep false l

/-- Strip trailing hyphens (the -+$ part of the trim regex). -/
def stripTrailHyphens (l : List Char) : List Char :=
  (l.reverse.dropWhile (· = '-')).reverse

/-- Strip leading hyphens (the ^-+ part of the trim regex). -/
def stripLeadHyphens (l : List Char) : List Char :=
  l.dropWhile (· = '-')

/-- Model of String.prototype.lastIndexOf("-"). -/
def lastIndexOfHyphen (l : List Char) : Option Nat :=
  match l.reverse.findIdx? (· = '-') with
  | some j => some (l.length - 1 - j)
  | none => none

/-- The normalization pipeline of normalizeName before length enforcement:
lowercase; collapse path-separator runs, colon/whitespace runs and
illegal-character runs to single hyphens; collapse hyphen runs; strip
leading and trailing hyphens.  Input is the already-trimmed character list. -/
def preNormalizeCore (t : List Char) : List Char :=
  stripTrailHyphens (stripLeadHyphens
    (replRuns (fun c => c = '-') '-'
      (replRuns (fun c => !goodChar c) '-'
        (replRuns (fun c => c = ':' || isWsChar c) '-'
          (replRuns (fun c => c = '\\' || c = '/') '-'
            (t.map Char.toLower))))))

/-- The pre-truncation normalized form of an input (after trim and the
character pipeline, before the maximum-length enforcement). -/
def preNormalize (value : String) : List Char :=
  preNormalizeCore (trimChars value.data)

/-- Kiro's maximum identifier length (KIRO_SKILL_NAME_MAX_LENGTH). -/
def KIRO_SKILL_NAME_MAX_LENGTH : Nat := 64

/-- Kiro's maximum description length (KIRO_DESCRIPTION_MAX_LENGTH). -/
def KIRO_DESCRIPTION_MAX_LENGTH : Nat := 1024

/-- The character pipeline plus the maximum-length enforcement of
normalizeName (truncate the 64-slice at its last hyphen when that hyphen
sits at a positive index, then re-trim trailing hyphens). -/
def normalizeNameCore (t : List Char) : List Char :=
  let n := preNormalizeCore t
  if KIRO_SKILL_NAME_MAX_LENGTH < n.length then
    let sl := n.take KIRO_SKILL_NAME_MAX_LENGTH
    let sl :=
      match lastIndexOfHyphen sl with
      | some i => if 0 < i then sl.take i else sl
      | none => sl
    stripTrailHyphens sl
  else n

/-- Model of normalizeName from converters/claude-to-kiro.ts. -/
def normalizeName (value : String) : String :=
  let t := trimChars value.data
  if t = [] then "item"
  else
    let n := normalizeNameCore t
    if n = [] then "item"
    else if isLowerAlpha (n.headD 'a') then ⟨n⟩ else "item"

/-- Model of sanitizeDescription: collapse whitespace runs to single spaces,
trim, and truncate over-long values to max - 3 characters plus an ellipsis. -/
def sanitizeDescription (value : String) : String :=
  let normalized := trimChars (replRuns isWsChar ' ' value.data)
  if normalized.length ≤ KIRO_DESCRIPTION_MAX_LENGTH then ⟨normalized⟩
  else
    ⟨((normalized.take (KIRO_DESCRIPTION_MAX_LENGTH - 3)).reverse.dropWhile
        isWsChar).reverse ++ "...".data⟩

/-- Decimal digit list of a positive number; fuel-structural so that the
kernel can evaluate it (fuel at least n suffices). -/
def natReprGo : Nat → Nat → List Char
  | _, 0 => []
  | 0, _ + 1 => []
  | f + 1, n + 1 => natReprGo f ((n + 1) / 10) ++ [Nat.digitChar ((n + 1) % 10)]

/-- Decimal representation of a natural number, the model of JavaScript
template interpolation of a number. -/
def natRepr (n : Nat) : String :=
  if n = 0 then "0" else ⟨natReprGo n n⟩

/-- Numeric value of a decimal digit character. -/
def digitVal (c : Char) : Nat := c.toNat - '0'.toNat

/-- Parse a digit list back to a number (left inverse of natReprGo). -/
def valNat (l : List Char) : Nat :=
  l.foldl (fun a c => a * 10 + digitVal c) 0

theorem valNat_go (l : List Char) (a : Nat) :
    l.foldl (fun a c => a * 10 + digitVal c) a = a * 10 ^ l.length + valNat l := by
  induction l generalizing a with
  | nil => simp [valNat]
  | cons c cs ih =>
    simp only [List.foldl_cons, valNat, List.length_cons, Nat.zero_mul, Nat.zero_add]
    rw [ih (a * 10 + digitVal c), ih (digitVal c)]
    ring

theorem valNat_append_singleton (l : List Char) (c : Char) :
    valNat (l ++ [c]) = valNat l * 10 + digitVal c := by
  simp [valNat, List.foldl_append]

theorem digitVal_digitChar (r : Nat) (h : r < 10) :
    digitVal (Nat.digitChar r) = r := by
  interval_cases r <;> decide

theorem natReprGo_val (f n : Nat) (h : n ≤ f) : valNat (natReprGo f n) = n := by
  induction f generalizing n with
  | zero =>
    interval_cases n
    simp [natReprGo, valNat]
  | succ f ih =>
    match n with
    | 0 => simp [natReprGo, valNat]
    | n + 1 =>
      have hdiv : (n + 1) / 10 < n + 1 := Nat.div_lt_self (Nat.succ_pos n) (by norm_num)
      have hle : (n + 1) / 10 ≤ f := by omega
      rw [natReprGo, valNat_append_singleton, ih _ hle,
        digitVal_digitChar _ (Nat.mod_lt _ (by norm_num))]
      omega

theorem natRepr_inj {m n : Nat} (h : natRepr m = natRepr n) : m = n := by
  unfold natRepr at h
  by_cases hm : m = 0 <;> by_cases hn : n = 0 <;> simp [hm, hn] at h ⊢
  · -- m = 0, n ≠ 0
    have : valNat (natReprGo n n) = n := natReprGo_val n n le_rfl
    have hdata : ("0" : String).data = natReprGo n n := congrArg String.data h
    rw [← hdata] at this
    simp [valNat, digitVal] at this
    omega
  · -- m ≠ 0, n = 0
    have : valNat (natReprGo m m) = m := natReprGo_val m m le_rfl
    have hdata : (String.mk (natReprGo m m)).data = ("0" : String).data :=
      congrArg String.data h
    simp at hdata
    rw [hdata] at this
    simp [valNat, digitVal] at this
    omega
  · have hdata : (String.mk (natReprGo m m)).data = (String.mk (natReprGo n n)).data :=
      congrArg String.data h
    simp at hdata
    have h1 := natReprGo_val m m le_rfl
    have h2 := natReprGo_val n n le_rfl
    rw [hdata] at h1
    omega

/-- The probing loop of uniqueName: try base-i, base-(i+1), ... returning the
first candidate not in used; fuel-structural (fuel used.length + 1 is always
sufficient, see uniqueName_fresh). -/
def uniqueNameProbe (base : String) (used : List String) : Nat → Nat → String
  | 0, i => base ++ "-" ++ natRepr i
  | f + 1, i =>
    let cand := base ++ "-" ++ natRepr i
    if cand ∈ used then uniqueNameProbe base used f (i + 1) else cand

/-- Model of uniqueName from converters/claude-to-kiro.ts: the mutable Set is
threaded explicitly; returns the allocated name and the updated registry. -/
def uniqueName (base : String) (used : List String) : String × List String :=
  if base ∈ used then
    let n := uniqueNameProbe base used (used.length + 1) 2
    (n, n :: used)
  else (base, base :: used)

theorem uniqueNameProbe_not_mem (base : String) (used : List String) :
    ∀ f i, (∃ k, k ≤ f ∧ (base ++ "-" ++ natRepr (i + k)) ∉ used) →
      uniqueNameProbe base used f i ∉ used := by
  intro f
  induction f with
  | zero =>
    intro i ⟨k, hk, hfree⟩
    interval_cases k
    simpa [uniqueNameProbe] using hfree
  | succ f ih =>
    intro i ⟨k, hk, hfree⟩
    rw [uniqueNameProbe]
    by_cases hc : (base ++ "-" ++ natRepr i) ∈ used
    · simp only [hc, if_true]
      match k, hk with
      | 0, _ => simp at hfree; exact absurd hc hfree
      | k + 1, hk =>
        exact ih (i + 1) ⟨k, by omega, by
          have : i + 1 + k = i + (k + 1) := by omega
          rw [this]; exact hfree⟩
    · simp only [if_neg hc]
      exact hc

theorem string_data_inj {s t : String} (h : s.data = t.data) : s = t := by
  cases s; cases t; exact congrArg String.mk h

theorem candidate_inj (base : String) {a b : Nat}
    (h : base ++ "-" ++ natRepr a = base ++ "-" ++ natRepr b) : a = b := by
  apply natRepr_inj
  have hd := congrArg String.data h
  simp [String.data_append] at hd
  exact string_data_inj hd

/-- Among the used.length + 1 candidates base-2 ... base-(used.length + 2),
at least one is free: they are pairwise distinct strings. -/
theorem exists_free_candidate (base : String) (used : List String) :
    ∃ k, k ≤ used.length ∧ (base ++ "-" ++ natRepr (2 + k)) ∉ used := by
  by_contra hall
  push_neg at hall
  have hsub : (Finset.range (used.length + 1)).image
      (fun k => base ++ "-" ++ natRepr (2 + k)) ⊆ used.toFinset := by
    intro x hx
    simp only [Finset.mem_image, Finset.mem_range] at hx
    obtain ⟨k, hk, rfl⟩ := hx
    exact List.mem_toFinset.mpr (hall k (by omega))
  have hinj : Set.InjOn (fun k => base ++ "-" ++ natRepr (2 + k))
      (Finset.range (used.length + 1)) := by
    intro a _ b _ hab
    have := candidate_inj base hab
    omega
  have hcard := Finset.card_image_of_injOn hinj
  have hle := Finset.card_le_card hsub
  rw [hcard, Finset.card_range] at hle
  have := List.toFinset_card_le used
  omega

/-- The name allocated by uniqueName is never already in the registry. -/
theorem uniqueName_fresh (base : String) (used : List String) :
    (uniqueName base used).1 ∉ used := by
  unfold uniqueName
  by_cases hb : base ∈ used
  · simp only [hb, if_true]
    apply uniqueNameProbe_not_mem
    obtain ⟨k, hk, hfree⟩ := exists_free_candidate base used
    exact ⟨k, by omega, hfree⟩
  · simp only [if_neg hb]
    exact hb

/-- uniqueName records the allocated name in the registry it returns. -/
theorem uniqueName_snd (base : String) (used : List String) :
    (uniqueName base used).2 = (uniqueName base used).1 :: used := by
  unfold uniqueName
  by_cases hb : base ∈ used <;> simp [hb]

/-! ## The content transformation engine (transformContentForKiro)

Each regex pass is modelled by a left-to-right scanner mirroring the
JavaScript pattern's anchors, lookbehind/lookahead and greediness.  The
scanners carry fuel so the kernel can evaluate them; fuel length + 1 is
always sufficient because every step consumes at least one character. -/

/-- Quote characters of the path-rewrite lookbehind class. -/
def isQuoteChar (c : Char) : Bool :=
  c = '"' || c = squoteChar || c = backtickChar

/-- Characters of the Task-call agent-name class [a-z0-9-] (after the first). -/
def isAgentNameChar (c : Char) : Bool :=
  isLowerAlpha c || c.isDigit || c = '-'

/-- Pass 1 helper: consume the line prefix matching the backslash-s star,
optional hyphen, backslash-s star group; returns (consumed, rest). -/
def taskPrefixSplit (l : List Char) : List Char × List Char :=
  let w1 := l.takeWhile isWsChar
  let r1 := l.dropWhile isWsChar
  match r1 with
  | '-' :: r2 =>
      (w1 ++ '-' :: r2.takeWhile isWsChar, r2.dropWhile isWsChar)
  | _ => (w1, r1)

/-- Pass 1 helper: attempt the Task-call pattern at a line start; on success
returns (matched prefix, agent name, raw argument text, rest after match). -/
def tryMatchTask (l : List Char) : Option (List Char × List Char × List Char × List Char) :=
  let (pre, r) := taskPrefixSplit l
  if "Task".data.isPrefixOf r then
    let r1 := r.drop 4
    let w := r1.takeWhile isWsChar
    let r2 := r1.dropWhile isWsChar
    if w = [] then none
    else
      match r2 with
      | c :: r3 =>
        if isLowerAlpha c then
          let nm := r3.takeWhile isAgentNameChar
          match r3.dropWhile isAgentNameChar with
          | copen :: r5 =>
            if copen = '(' then
              let args := r5.takeWhile (· ≠ ')')
              if args = [] then none
              else
                match r5.dropWhile (· ≠ ')') with
                | cclose :: r7 => if cclose = ')' then some (pre, c :: nm, args, r7) else none
                | _ => none
            else none
          | _ => none
        else none
      | [] => none
  else none

/-- Pass 1: rewrite line-anchored Task agent-name(args) calls into
use_subagent delegation prose (multiline, global). -/
def pass1Go : Nat → Bool → List Char → List Char
  | 0, _, l => l
  | fuel + 1, lineStart, l =>
    match l with
    | [] => []
    | c :: cs =>
      if lineStart then
        match tryMatchTask l with
        | some (pre, nm, args, rest) =>
          pre ++ "Use the use_subagent tool to delegate to the ".data
            ++ (normalizeName ⟨nm⟩).data ++ " agent: ".data ++ trimChars args
            ++ pass1Go fuel false rest
        | none => c :: pass1Go fuel (c = '\n' || c = '\r') cs
      else c :: pass1Go fuel (c = '\n' || c = '\r') cs

/-- Pass 1 at standard fuel. -/
def pass1 (l : List Char) : List Char := pass1Go (l.length + 1) true l

/-- Pass 2a: rewrite tilde-home .claude/ path prefixes to .kiro/ when
preceded by start, whitespace or a quote character. -/
def pass2aGo : Nat → Bool → List Char → List Char
  | 0, _, l => l
  | fuel + 1, prevOk, l =>
    match l with
    | [] => []
    | c :: cs =>
      if prevOk && "~/.claude/".data.isPrefixOf l then
        "~/.kiro/".data ++ pass2aGo fuel false (l.drop 10)
      else c :: pass2aGo fuel (isWsChar c || isQuoteChar c) cs

/-- Pass 2a at standard fuel. -/
def pass2a (l : List Char) : List Char := pass2aGo (l.length + 1) true l

/-- Pass 2b: rewrite repo-relative .claude/ path prefixes to .kiro/ when
preceded by start, whitespace or a quote character. -/
def pass2bGo : Nat → Bool → List Char → List Char
  | 0, _, l => l
  | fuel + 1, prevOk, l =>
    match l with
    | [] => []
    | c :: cs =>
      if prevOk && ".claude/".data.isPrefixOf l then
        ".kiro/".data ++ pass2bGo fuel false (l.drop 8)
      else c :: pass2bGo fuel (isWsChar c || isQuoteChar c) cs

/-- Pass 2b at standard fuel. -/
def pass2b (l : List Char) : List Char := pass2bGo (l.length + 1) true l

/-- Characters of the slash-command-name class [a-zA-Z0-9_:-] (after the first). -/
def isCmdChar (c : Char) : Bool :=
  isAsciiAlpha c || c.isDigit || c = '_' || c = ':' || c = '-'

/-- Pass 3 helper: attempt the optionally-backticked slash-reference pattern;
on success returns (command name, rest after match). -/
def tryMatchSlash (l : List Char) : Option (List Char × List Char) :=
  let r := match l with
    | t :: r' => if t = backtickChar then r' else l
    | [] => l
  match r with
  | c0 :: c :: r2 =>
    if c0 = '/' && isAsciiAlpha c then
      let nm := r2.takeWhile isCmdChar
      let r3 := r2.dropWhile isCmdChar
      let rest := match r3 with
        | t :: r4 => if t = backtickChar then r4 else r3
        | [] => r3
      some (c :: nm, rest)
    else none
  | _ => none

/-- Pass 3: rewrite standalone slash references into skill prose when
preceded by start or whitespace. -/
def pass3Go : Nat → Bool → List Char → List Char
  | 0, _, l => l
  | fuel + 1, prevOk, l =>
    match l with
    | [] => []
    | c :: cs =>
      if prevOk then
        match tryMatchSlash l with
        | some (nm, rest) =>
          "the ".data ++ (normalizeName ⟨nm⟩).data ++ " skill".data
            ++ pass3Go fuel false rest
        | none => c :: pass3Go fuel (isWsChar c) cs
      else c :: pass3Go fuel (isWsChar c) cs

/-- Pass 3 at standard fuel. -/
def pass3 (l : List Char) : List Char := pass3Go (l.length + 1) true l

/-- The ordered tool-name mapping CLAUDE_TO_KIRO_TOOLS. -/
def CLAUDE_TO_KIRO_TOOLS : List (List Char × List Char) :=
  [("Bash".data, "shell".data), ("Write".data, "write".data),
   ("Read".data, "read".data), ("Edit".data, "write".data),
   ("Glob".data, "glob".data), ("Grep".data, "grep".data),
   ("WebFetch".data, "web_fetch".data), ("Task".data, "use_subagent".data)]

/-- Pass 4 lookahead: whitespace-plus then "tool", or whitespace-plus then
"to" followed by whitespace. -/
def lookaheadToolTo (l : List Char) : Bool :=
  let w := l.takeWhile isWsChar
  let r := l.dropWhile isWsChar
  if w = [] then false
  else
    "tool".data.isPrefixOf r ||
      ("to".data.isPrefixOf r &&
        (match r.drop 2 with
         | c :: _ => isWsChar c
         | [] => false))

/-- Pass 4 single-tool scanner: replace word-boundary-guarded occurrences of
key that pass the lookahead with val (key is consumed, lookahead is not). -/
def pass4oneGo (key val : List Char) : Nat → Bool → List Char → List Char
  | 0, _, l => l
  | fuel + 1, prevNonWord, l =>
    match l with
    | [] => []
    | c :: cs =>
      if prevNonWord && key.isPrefixOf l
          && (match l.drop key.length with
              | c' :: _ => !isWordChar c'
              | [] => true)
          && lookaheadToolTo (l.drop key.length) then
        val ++ pass4oneGo key val fuel false (l.drop key.length)
      else c :: pass4oneGo key val fuel (!isWordChar c) cs

/-- Pass 4: apply the eight tool-name replacements in declaration order. -/
def pass4 (l : List Char) : List Char :=
  CLAUDE_TO_KIRO_TOOLS.foldl (fun acc kv => pass4oneGo kv.1 kv.2 (acc.length + 1) true acc) l

/-- Word-boundary test after a matched peer name: last is the final matched
character ('@' when the name is empty), rest is the remaining input. -/
def boundaryAfter (last : Char) (rest : List Char) : Bool :=
  match rest with
  | [] => isWordChar last
  | c :: _ => isWordChar last != isWordChar c

/-- Pass 5 helper: try the peer names (regex alternation order) against the
text following an at-sign; on success returns (name, rest after match). -/
def tryNames (names : List String) (rest : List Char) : Option (String × List Char) :=
  match names with
  | [] => none
  | n :: ns =>
    if n.data.isPrefixOf rest then
      let after := rest.drop n.data.length
      if boundaryAfter ((n.data.getLast?).getD '@') after then some (n, after)
      else tryNames ns rest
    else tryNames ns rest

/-- Pass 5 scanner: rewrite at-sign mentions of known peer names. -/
def pass5Go (names : List String) : Nat → List Char → List Char
  | 0, l => l
  | fuel + 1, l =>
    match l with
    | [] => []
    | c :: cs =>
      if c = '@' then
        match tryNames names cs with
        | some (n, after) =>
          "the ".data ++ (normalizeName n).data ++ " agent".data
            ++ pass5Go names fuel after
        | none => c :: pass5Go names fuel cs
      else c :: pass5Go names fuel cs

/-- Pass 5: skipped entirely when the known-peer list is empty. -/
def pass5 (names : List String) (l : List Char) : List Char :=
  if names = [] then l else pass5Go names (l.length + 1) l

/-- Model of transformContentForKiro: the five passes in order. -/
def transformContentForKiro (body : String) (knownAgentNames : List String) : String :=
  ⟨pass5 knownAgentNames (pass4 (pass3 (pass2b (pass2a (pass1 body.data)))))⟩

/-! ## Source and target data model (types/claude.ts, types/kiro.ts)

CLAUDE.md loading (readFileSync in buildSteeringFiles) is modelled by an
explicit claudeMdContent field: none models a missing or unreadable file,
some c models a successfully read file with content c. -/

structure ClaudeAgent where
  name : String
  description : Option String
  capabilities : Option (List String)
  body : String
deriving DecidableEq

structure ClaudeCommand where
  name : String
  description : Option String
  body : String
deriving DecidableEq

structure ClaudeSkill where
  name : String
  sourceDir : String
deriving DecidableEq

structure ClaudeMcpServer where
  command : Option String
  args : Option (List String)
  env : Option (List (String × String))
deriving DecidableEq

structure ClaudeHooks where
  hooks : List String
deriving DecidableEq

structure ClaudePlugin where
  root : String
  agents : List ClaudeAgent
  commands : List ClaudeCommand
  skills : List ClaudeSkill
  mcpServers : Option (List (String × ClaudeMcpServer))
  hooks : Option ClaudeHooks
  claudeMdContent : Option String
deriving DecidableEq

structure KiroAgentConfig where
  name : String
  description : String
  prompt : String
  tools : List String
  resources : List String
  includeMcpJson : Bool
  welcomeMessage : String
deriving DecidableEq

structure KiroAgent where
  name : String
  config : KiroAgentConfig
  promptContent : String
deriving DecidableEq

structure KiroSkill where
  name : String
  content : String
deriving DecidableEq

structure KiroSkillDir where
  name : String
  sourceDir : String
deriving DecidableEq

structure KiroSteeringFile where
  name : String
  content : String
deriving DecidableEq

structure KiroMcpServer where
  command : String
  args : Option (List String)
  env : Option (List (String × String))
deriving DecidableEq

structure KiroBundle where
  agents : List KiroAgent
  generatedSkills : List KiroSkill
  skillDirs : List KiroSkillDir
  steeringFiles : List KiroSteeringFile
  mcpServers : List (String × KiroMcpServer)
deriving DecidableEq

/-! ## The converter (convertClaudeToKiro and helpers) -/

/-- Modelled from the spec: formatFrontmatter (src/utils/frontmatter.ts is
not among the provided sources).  Serializes the name/description header
block followed by the body text in the target's recognized header syntax. -/
def formatFrontmatter (name description body : String) : String :=
  "---\nname: " ++ name ++ "\ndescription: " ++ description ++ "\n---\n\n" ++ body

/-- Model of convertAgentToKiroAgent from converters/claude-to-kiro.ts. -/
def convertAgentToKiroAgent (agent : ClaudeAgent) (knownAgentNames : List String) : KiroAgent :=
  let name := normalizeName agent.name
  let description := sanitizeDescription
    (agent.description.getD ("Use this agent for " ++ agent.name ++ " tasks"))
  let config : KiroAgentConfig :=
    { name := name
      description := description
      prompt := "file://./prompts/" ++ name ++ ".md"
      tools := ["*"]
      resources := ["file://.kiro/steering/**/*.md", "skill://.kiro/skills/**/SKILL.md"]
      includeMcpJson := true
      welcomeMessage := "Switching to the " ++ name ++ " agent. " ++ description }
  let body := transformContentForKiro (trimStr agent.body) knownAgentNames
  let body :=
    match agent.capabilities with
    | some caps =>
      if caps ≠ [] then
        trimStr ("## Capabilities\n"
          ++ String.intercalate "\n" (caps.map (fun c => "- " ++ c)) ++ "\n\n" ++ body)
      else body
    | none => body
  let body :=
    if body.data.length = 0 then
      "Instructions converted from the " ++ agent.name ++ " agent."
    else body
  { name := name, config := config, promptContent := body }

/-- Model of convertCommandToSkill; the mutable usedNames Set is threaded
explicitly. -/
def convertCommandToSkill (command : ClaudeCommand) (used : List String)
    (knownAgentNames : List String) : KiroSkill × List String :=
  let rawName := normalizeName command.name
  let (name, used') := uniqueName rawName used
  let description := sanitizeDescription
    (command.description.getD ("Converted from Claude command " ++ command.name))
  let body := transformContentForKiro (trimStr command.body) knownAgentNames
  let body :=
    if body.data.length = 0 then
      "Instructions converted from the " ++ command.name ++ " command."
    else body
  ({ name := name, content := formatFrontmatter name description body }, used')

/-- The exclusion warning emitted for an MCP server without a usable command. -/
def mcpWarning (name : String) : String :=
  "Warning: MCP server \"" ++ name ++ "\" has no command (HTTP/SSE transport). Kiro only supports stdio. Skipping."

/-- Model of the loop body of convertMcpServers; returns the converted map
and the warnings, both in iteration order.  The JavaScript truthiness test
on server.command treats both an absent and an empty command as falsy. -/
def convertMcpServersGo : List (String × ClaudeMcpServer) → List (String × KiroMcpServer) × List String
  | [] => ([], [])
  | (name, server) :: rest =>
    let (res, warns) := convertMcpServersGo rest
    if server.command.getD "" = "" then
      (res, mcpWarning name :: warns)
    else
      let entry : KiroMcpServer :=
        { command := server.command.getD ""
          args := match server.args with
            | some a => if a ≠ [] then some a else none
            | none => none
          env := match server.env with
            | some e => if e ≠ [] then some e else none
            | none => none }
      ((name, entry) :: res, warns)

/-- Model of convertMcpServers from converters/claude-to-kiro.ts. -/
def convertMcpServers (servers : Option (List (String × ClaudeMcpServer))) :
    List (String × KiroMcpServer) × List String :=
  match servers with
  | none => ([], [])
  | some l => if l.length = 0 then ([], []) else convertMcpServersGo l

/-- Model of buildSteeringFiles: the CLAUDE.md read is the claudeMdContent
field of the plugin model. -/
def buildSteeringFiles (plugin : ClaudePlugin) (knownAgentNames : List String) :
    List KiroSteeringFile :=
  match plugin.claudeMdContent with
  | none => []
  | some content =>
    if (trimStr content).data.length = 0 then []
    else [{ name := "compound-engineering"
            content := transformContentForKiro content knownAgentNames }]

/-- JavaScript Set.add: insert if not already present. -/
def insertIfAbsent (x : String) (l : List String) : List String :=
  if x ∈ l then l else x :: l

/-- The initial usedSkillNames registry: normalized names of the
pass-through skills, reserved before any generated skill is named. -/
def initialSkillRegistry (plugin : ClaudePlugin) : List String :=
  plugin.skills.foldl (fun acc sk => insertIfAbsent (normalizeName sk.name) acc) []

/-- The commands-to-skills map with the usedNames registry threaded. -/
def convertCommandsGo (commands : List ClaudeCommand) (used : List String)
    (knownAgentNames : List String) : List KiroSkill × List String :=
  match commands with
  | [] => ([], used)
  | c :: rest =>
    let (sk, used') := convertCommandToSkill c used knownAgentNames
    let (sks, used'') := convertCommandsGo rest used' knownAgentNames
    (sk :: sks, used'')

/-- Model of convertClaudeToKiro from converters/claude-to-kiro.ts. -/
def convertClaudeToKiro (plugin : ClaudePlugin) : KiroBundle :=
  let skillDirs := plugin.skills.map
    (fun sk => { name := sk.name, sourceDir := sk.sourceDir : KiroSkillDir })
  let usedSkillNames := initialSkillRegistry plugin
  let agentNames := plugin.agents.map (fun a => normalizeName a.name)
  let agents := plugin.agents.map (fun a => convertAgentToKiroAgent a agentNames)
  let generatedSkills := (convertCommandsGo plugin.commands usedSkillNames agentNames).1
  let mcpServers := (convertMcpServers plugin.mcpServers).1
  let steeringFiles := buildSteeringFiles plugin agentNames
  { agents := agents, generatedSkills := generatedSkills, skillDirs := skillDirs
    steeringFiles := steeringFiles, mcpServers := mcpServers }

/-! ## JSON model, settings merge, and the bundle writer (writers/kiro.ts)

File-system effects are modelled as an emitted list of file operations;
paths are modelled as segment lists (path.join appends a segment,
path.basename takes the last segment).  The pre-existing mcp.json file is
modelled by an explicit McpFileState parameter: absent (no file),
unparseable (readJson threw), or parsed fields. -/

inductive Json where
  | null : Json
  | bool (b : Bool) : Json
  | num (n : Int) : Json
  | str (s : String) : Json
  | arr (elems : List Json) : Json
  | obj (fields : List (String × Json)) : Json

inductive McpFileState where
  | absent : McpFileState
  | unparseable : McpFileState
  | parsed (fields : List (String × Json)) : McpFileState

/-- Whether the existing-file state is an absent file. -/
def McpFileState.isAbsent : McpFileState → Bool
  | McpFileState.absent => true
  | _ => false

/-- Whether the existing-file state is a parse failure. -/
def McpFileState.isUnparseable : McpFileState → Bool
  | McpFileState.unparseable => true
  | _ => false

/-- First-match lookup in a JavaScript-object field list. -/
def objGet (fields : List (String × Json)) (k : String) : Option Json :=
  (fields.find? (fun kv => kv.1 = k)).map (fun kv => kv.2)

/-- JavaScript object spread of two objects: the first object's keys in
order with values overridden by the second on collision, followed by the
second object's new keys in order. -/
def spreadObj (a b : List (String × Json)) : List (String × Json) :=
  a.map (fun kv => (kv.1, (objGet b kv.1).getD kv.2))
    ++ b.filter (fun kv => !(a.any (fun kv' => kv'.1 = kv.1)))

/-- Serialization of a KiroMcpServer entry (command, optional args, optional
env, in construction order). -/
def kiroMcpServerToJson (s : KiroMcpServer) : Json :=
  Json.obj ([("command", Json.str s.command)]
    ++ (match s.args with
        | some a => [("args", Json.arr (a.map Json.str))]
        | none => [])
    ++ (match s.env with
        | some e => [("env", Json.obj (e.map (fun kv => (kv.1, Json.str kv.2))))]
        | none => []))

/-- Serialization of a KiroAgentConfig (field construction order). -/
def kiroAgentConfigToJson (c : KiroAgentConfig) : Json :=
  Json.obj [("name", Json.str c.name), ("description", Json.str c.description),
    ("prompt", Json.str c.prompt), ("tools", Json.arr (c.tools.map Json.str)),
    ("resources", Json.arr (c.resources.map Json.str)),
    ("includeMcpJson", Json.bool c.includeMcpJson),
    ("welcomeMessage", Json.str c.welcomeMessage)]

/-- The read-and-merge step for mcp.json (writers/kiro.ts lines 76-91): an
absent or unparseable existing file contributes no existing config; the
mcpServers key is merged with the bundle's servers taking precedence. -/
def mergeMcpConfig (existing : McpFileState) (servers : List (String × KiroMcpServer)) :
    List (String × Json) :=
  let existingConfig : List (String × Json) :=
    match existing with
    | McpFileState.parsed fields => fields
    | _ => []
  let existingServers : List (String × Json) :=
    match objGet existingConfig "mcpServers" with
    | some (Json.obj so) => so
    | _ => []
  spreadObj existingConfig
    [("mcpServers", Json.obj (spreadObj existingServers
      (servers.map (fun kv => (kv.1, kiroMcpServerToJson kv.2)))))]

inductive FileOp where
  | ensureDir (path : List String)
  | writeJsonFile (path : List String) (content : Json)
  | writeTextFile (path : List String) (content : String)
  | copyDirOp (src : String) (path : List String)
  | backupFile (path : List String)

structure KiroPaths where
  kiroDir : List String
  agentsDir : List String
  skillsDir : List String
  steeringDir : List String
  settingsDir : List String

/-- Model of resolveKiroPaths: write directly into an outputRoot whose last
segment is .kiro, otherwise nest a .kiro directory under it. -/
def resolveKiroPaths (outputRoot : List String) : KiroPaths :=
  if outputRoot.getLast? = some ".kiro" then
    { kiroDir := outputRoot
      agentsDir := outputRoot ++ ["agents"]
      skillsDir := outputRoot ++ ["skills"]
      steeringDir := outputRoot ++ ["steering"]
      settingsDir := outputRoot ++ ["settings"] }
  else
    let kiroDir := outputRoot ++ [".kiro"]
    { kiroDir := kiroDir
      agentsDir := kiroDir ++ ["agents"]
      skillsDir := kiroDir ++ ["skills"]
      steeringDir := kiroDir ++ ["steering"]
      settingsDir := kiroDir ++ ["settings"] }

/-- Contiguous-substring test, the model of String.prototype.includes. -/
def containsSeq (pat l : List Char) : Bool :=
  match l with
  | [] => pat.isPrefixOf l
  | _ :: cs => pat.isPrefixOf l || containsSeq pat cs

/-- The unsafe-identifier test of validatePathSafe: contains "..", "/" or a
backslash. -/
def unsafePathName (name : String) : Bool :=
  containsSeq "..".data name.data || name.data.contains '/' || name.data.contains '\\'

/-- Model of validatePathSafe: returns the raised error message, if any. -/
def validatePathSafe (name label : String) : Option String :=
  if unsafePathName name then
    some (label ++ " name contains unsafe path characters: " ++ name)
  else none

/-- The two file writes performed for one agent record. -/
def agentOps (paths : KiroPaths) (agent : KiroAgent) : List FileOp :=
  [FileOp.writeJsonFile (paths.agentsDir ++ [agent.name ++ ".json"])
      (kiroAgentConfigToJson agent.config),
   FileOp.writeTextFile (paths.agentsDir ++ ["prompts", agent.name ++ ".md"])
      (agent.promptContent ++ "\n")]

/-- The single file write performed for one generated-skill record. -/
def generatedSkillOps (paths : KiroPaths) (skill : KiroSkill) : List FileOp :=
  [FileOp.writeTextFile (paths.skillsDir ++ [skill.name, "SKILL.md"])
      (skill.content ++ "\n")]

/-- The directory copy performed for one pass-through skill record. -/
def skillDirOps (paths : KiroPaths) (sd : KiroSkillDir) : List FileOp :=
  [FileOp.copyDirOp sd.sourceDir (paths.skillsDir ++ [sd.name])]

/-- The single file write performed for one steering record. -/
def steeringOps (paths : KiroPaths) (file : KiroSteeringFile) : List FileOp :=
  [FileOp.writeTextFile (paths.steeringDir ++ [file.name ++ ".md"])
      (file.content ++ "\n")]

/-- Model of path.resolve on segment lists: drop "." segments, let ".."
pop the previous segment. -/
def resolveSegsGo (acc : List String) : List String → List String
  | [] => acc.reverse
  | s :: rest =>
    if s = "." then resolveSegsGo acc rest
    else if s = ".." then resolveSegsGo acc.tail rest
    else resolveSegsGo (s :: acc) rest

def resolveSegs (l : List String) : List String := resolveSegsGo [] l

/-- The agents loop of writeKiroBundle: validate, then write config and
prompt; a validation failure raises before this record writes anything. -/
def writeAgentsGo (paths : KiroPaths) : List KiroAgent → List FileOp × Option String
  | [] => ([], none)
  | a :: rest =>
    match validatePathSafe a.name "agent" with
    | some e => ([], some e)
    | none =>
      let (ops, err) := writeAgentsGo paths rest
      (agentOps paths a ++ ops, err)

/-- The generated-skills loop of writeKiroBundle. -/
def writeGeneratedSkillsGo (paths : KiroPaths) : List KiroSkill → List FileOp × Option String
  | [] => ([], none)
  | s :: rest =>
    match validatePathSafe s.name "skill" with
    | some e => ([], some e)
    | none =>
      let (ops, err) := writeGeneratedSkillsGo paths rest
      (generatedSkillOps paths s ++ ops, err)

/-- The pass-through skill-directories loop of writeKiroBundle: validate
(raises), then the resolved-destination escape check (skips with warning). -/
def writeSkillDirsGo (paths : KiroPaths) :
    List KiroSkillDir → List FileOp × List String × Option String
  | [] => ([], [], none)
  | sd :: rest =>
    match validatePathSafe sd.name "skill directory" with
    | some e => ([], [], some e)
    | none =>
      let destDir := paths.skillsDir ++ [sd.name]
      let (ops, warns, err) := writeSkillDirsGo paths rest
      if !(resolveSegs paths.skillsDir).isPrefixOf (resolveSegs destDir) then
        (ops, ("Warning: Skill name \"" ++ sd.name ++ "\" escapes .kiro/skills/. Skipping.") :: warns, err)
      else
        (skillDirOps paths sd ++ ops, warns, err)

/-- The steering-files loop of writeKiroBundle. -/
def writeSteeringGo (paths : KiroPaths) : List KiroSteeringFile → List FileOp × Option String
  | [] => ([], none)
  | f :: rest =>
    match validatePathSafe f.name "steering file" with
    | some e => ([], some e)
    | none =>
      let (ops, err) := writeSteeringGo paths rest
      (steeringOps paths f ++ ops, err)

/-- The mcp.json section of writeKiroBundle: skipped for an empty server
map; otherwise backup any pre-existing file, warn on a parse failure, and
write the merged configuration. -/
def writeMcpSection (paths : KiroPaths) (servers : List (String × KiroMcpServer))
    (existing : McpFileState) : List FileOp × List String :=
  if servers = [] then ([], [])
  else
    let mcpPath := paths.settingsDir ++ ["mcp.json"]
    ((if !existing.isAbsent then [FileOp.backupFile mcpPath] else [])
        ++ [FileOp.writeJsonFile mcpPath (Json.obj (mergeMcpConfig existing servers))],
     if existing.isUnparseable then
       ["Warning: existing mcp.json could not be parsed and will be replaced."]
     else [])

structure WriteResult where
  ops : List FileOp
  warnings : List String
  error : Option String

/-- Model of writeKiroBundle: sections in source order (agents, generated
skills, pass-through skill directories, steering files, mcp.json); a raise
in any section aborts all later work, and the ops performed up to the raise
are reported alongside the error. -/
def writeKiroBundle (outputRoot : List String) (bundle : KiroBundle)
    (existingMcp : McpFileState) : WriteResult :=
  let paths := resolveKiroPaths outputRoot
  let base : List FileOp := [FileOp.ensureDir paths.kiroDir]
  let (aOps, aErr) := writeAgentsGo paths bundle.agents
  match aErr with
  | some e => { ops := base ++ aOps, warnings := [], error := some e }
  | none =>
    let (gOps, gErr) := writeGeneratedSkillsGo paths bundle.generatedSkills
    match gErr with
    | some e => { ops := base ++ aOps ++ gOps, warnings := [], error := some e }
    | none =>
      let (dOps, dWarns, dErr) := writeSkillDirsGo paths bundle.skillDirs
      match dErr with
      | some e => { ops := base ++ aOps ++ gOps ++ dOps, warnings := dWarns, error := some e }
      | none =>
        let (sOps, sErr) := writeSteeringGo paths bundle.steeringFiles
        match sErr with
        | some e =>
          { ops := base ++ aOps ++ gOps ++ dOps ++ sOps, warnings := dWarns, error := some e }
        | none =>
          let (mOps, mWarns) := writeMcpSection paths bundle.mcpServers existingMcp
          { ops := base ++ aOps ++ gOps ++ dOps ++ sOps ++ mOps
            warnings := dWarns ++ mWarns, error := none }

/-! ## Claim C1 -/

/-- C1 (code_bug evidence): the content transformation engine is not
idempotent.  On the body "/@reviewer x" with known peers ["reviewer"], one
application yields "/the reviewer agent x" (the peer-reference pass places
prose directly after a line-initial slash), and a second application's
slash-reference pass then re-matches "/the", yielding
"the the skill reviewer agent x".  Hence transform(transform(body, peers),
peers) differs from transform(body, peers), contradicting the spec's
idempotence guarantee. -/
theorem claim1_transform_not_idempotent :
    transformContentForKiro "/@reviewer x" ["reviewer"] = "/the reviewer agent x" ∧
    transformContentForKiro "/the reviewer agent x" ["reviewer"]
        = "the the skill reviewer agent x" ∧
    transformContentForKiro
        (transformContentForKiro "/@reviewer x" ["reviewer"]) ["reviewer"]
      ≠ transformContentForKiro "/@reviewer x" ["reviewer"] :=
  ⟨by decide, by decide, by decide⟩

/-! ## Claim C2: counterexample -/

/-- A plugin with two distinct agent names that normalize identically. -/
def pluginC2 : ClaudePlugin :=
  { root := "r"
    agents := [{ name := "A", description := none, capabilities := none, body := "" },
               { name := "a", description := none, capabilities := none, body := "" }]
    commands := [], skills := [], mcpServers := none, hooks := none
    claudeMdContent := none }

/-- C2 (counterexample): agent identifiers are not deduplicated.  The two
distinct source agent names "A" and "a" both normalize to "a", and the
emitted bundle carries the identifier "a" twice — two distinct source names
in the agent namespace collide, with no numeric suffixing. -/
theorem claim2_agent_name_collision :
    ("A" : String) ≠ "a" ∧
    (convertClaudeToKiro pluginC2).agents.map KiroAgent.name = ["a", "a"] :=
  ⟨by decide, by decide⟩

/-! ## Claim C3: counterexample -/

/-- C3 (counterexample): the converter transforms the body first and only
then prefixes the capability list, so capability lines do not pass through
the transformation engine.  With capability "@rev" and known peer "rev",
the emitted prompt body keeps "@rev" verbatim, whereas transforming the
capability-prefixed text (as the claim states) would rewrite it. -/
theorem claim3_capabilities_not_transformed :
    (convertAgentToKiroAgent
        { name := "rev", description := none, capabilities := some ["@rev"], body := "" }
        ["rev"]).promptContent = "## Capabilities\n- @rev" ∧
    transformContentForKiro "## Capabilities\n- @rev" ["rev"]
        = "## Capabilities\n- the rev agent" ∧
    (convertAgentToKiroAgent
        { name := "rev", description := none, capabilities := some ["@rev"], body := "" }
        ["rev"]).promptContent
      ≠ transformContentForKiro "## Capabilities\n- @rev" ["rev"] :=
  ⟨by decide, by decide, by decide⟩

/-! ## Claim C6: counterexample -/

/-- C6 (counterexample): a server with the empty-string command is excluded
although its command field is present (JavaScript truthiness), and a kept
server whose args is the present-but-empty list loses the args field (the
emitted entry omits args rather than preserving the empty list verbatim). -/
theorem claim6_empty_args_not_preserved :
    convertMcpServers
        (some [("a", { command := some "c", args := some [], env := none }),
               ("b", { command := some "", args := none, env := none })])
      = ([("a", { command := "c", args := none, env := none })], [mcpWarning "b"]) ∧
    ({ command := some "c", args := some [], env := none } : ClaudeMcpServer).args ≠ none ∧
    ({ command := some "", args := none, env := none } : ClaudeMcpServer).command ≠ none :=
  ⟨by decide, by decide, by decide⟩

/-! ## Claim C8: counterexample -/

/-- C8 (counterexample): for an input of 70 letters with no hyphen, the
pre-truncation normalized form (length 70) exceeds the limit and contains
no hyphen at all, and normalizeName hard-cuts it to the first 64 letters —
a mid-word truncation, not a truncation at a hyphen boundary. -/
theorem claim8_truncation_can_cut_midword :
    (preNormalize ⟨List.replicate 70 'a'⟩).length = 70 ∧
    '-' ∉ preNormalize ⟨List.replicate 70 'a'⟩ ∧
    normalizeName ⟨List.replicate 70 'a'⟩ = ⟨List.replicate 64 'a'⟩ :=
  ⟨by decide, by decide, by decide⟩

/-! ## Claim C6: amended theorem -/

theorem convertMcpServersGo_spec (l : List (String × ClaudeMcpServer)) :
    (convertMcpServersGo l).2
        = (l.filter (fun kv => kv.2.command.getD "" == "")).map (fun kv => mcpWarning kv.1) ∧
    (convertMcpServersGo l).1.map Prod.fst
        = (l.filter (fun kv => !(kv.2.command.getD "" == ""))).map Prod.fst ∧
    (∀ n s, (n, s) ∈ l → ∀ c, s.command = some c → c ≠ "" →
      ∃ e, (n, e) ∈ (convertMcpServersGo l).1 ∧ e.command = c ∧
        (∀ a, s.args = some a → a ≠ [] → e.args = some a) ∧
        ((s.args = none ∨ s.args = some []) → e.args = none) ∧
        (∀ v, s.env = some v → v ≠ [] → e.env = some v) ∧
        ((s.env = none ∨ s.env = some []) → e.env = none)) := by
  induction l with
  | nil => refine ⟨rfl, rfl, ?_⟩; intro n s h; simp at h
  | cons kv rest ih =>
    obtain ⟨n₀, s₀⟩ := kv
    obtain ⟨ih1, ih2, ih3⟩ := ih
    by_cases hc : s₀.command.getD "" = ""
    · refine ⟨?_, ?_, ?_⟩
      · simp [convertMcpServersGo, hc, ih1]
      · simp [convertMcpServersGo, hc, ih2]
      · intro n s hmem c hcmd hcne
        rcases List.mem_cons.mp hmem with heq | hmem'
        · exfalso
          have : s.command.getD "" = "" := by
            cases heq; exact hc
          rw [hcmd] at this
          simp at this
          exact hcne this
        · obtain ⟨e, he, rest'⟩ := ih3 n s hmem' c hcmd hcne
          refine ⟨e, ?_, rest'⟩
          simpa [convertMcpServersGo, hc] using he
    · refine ⟨?_, ?_, ?_⟩
      · simp [convertMcpServersGo, hc, ih1]
      · simp [convertMcpServersGo, hc, ih2]
      · intro n s hmem c hcmd hcne
        rcases List.mem_cons.mp hmem with heq | hmem'
        · obtain ⟨h1, h2⟩ := Prod.mk.injEq .. ▸ heq
          subst h1
          refine ⟨{ command := s₀.command.getD ""
                    args := match s₀.args with
                      | some a => if a ≠ [] then some a else none
                      | none => none
                    env := match s₀.env with
                      | some e => if e ≠ [] then some e else none
                      | none => none }, ?_, ?_, ?_, ?_, ?_, ?_⟩
          · simp [convertMcpServersGo, hc]
          · subst h2; rw [hcmd]; rfl
          · intro a ha hane
            subst h2; rw [ha]; simp [hane]
          · intro hor
            subst h2
            rcases hor with h | h <;> simp [h]
          · intro v hv hvne
            subst h2; rw [hv]; simp [hvne]
          · intro hor
            subst h2
            rcases hor with h | h <;> simp [h]
        · obtain ⟨e, he, rest'⟩ := ih3 n s hmem' c hcmd hcne
          refine ⟨e, ?_, rest'⟩
          simp only [convertMcpServersGo, hc]
          right
          exact he

/-- C6 (amended): conversion excludes exactly the servers whose command is
absent or empty (the JavaScript truthiness test), each exclusion producing
exactly one warning, in order; every kept server appears with its command
preserved, with nonempty args/env preserved verbatim, and with empty or
absent args/env omitted from the emitted entry. -/
theorem claim6_mcp_filtering (l : List (String × ClaudeMcpServer)) :
    (convertMcpServers (some l)).2
        = (l.filter (fun kv => kv.2.command.getD "" == "")).map (fun kv => mcpWarning kv.1) ∧
    (convertMcpServers (some l)).1.map Prod.fst
        = (l.filter (fun kv => !(kv.2.command.getD "" == ""))).map Prod.fst ∧
    (∀ n s, (n, s) ∈ l → ∀ c, s.command = some c → c ≠ "" →
      ∃ e, (n, e) ∈ (convertMcpServers (some l)).1 ∧ e.command = c ∧
        (∀ a, s.args = some a → a ≠ [] → e.args = some a) ∧
        ((s.args = none ∨ s.args = some []) → e.args = none) ∧
        (∀ v, s.env = some v → v ≠ [] → e.env = some v) ∧
        ((s.env = none ∨ s.env = some []) → e.env = none)) := by
  cases l with
  | nil =>
    refine ⟨rfl, rfl, ?_⟩
    intro n s h
    simp at h
  | cons kv rest =>
    have hconv : convertMcpServers (some (kv :: rest)) = convertMcpServersGo (kv :: rest) := by
      simp [convertMcpServers]
    rw [hconv]
    exact convertMcpServersGo_spec (kv :: rest)

/-- Witness for C6: a concrete kept server with nonempty args, obtained by
applying the amended theorem. -/
theorem claim6_mcp_filtering_witness :
    ∃ e, ("a", e) ∈ (convertMcpServers
        (some [("a", { command := some "c", args := some ["x"], env := none })])).1 ∧
      e.command = "c" ∧ e.args = some ["x"] := by
  obtain ⟨e, hmem, hc, hargs, _, _, _⟩ :=
    (claim6_mcp_filtering
        [("a", { command := some "c", args := some ["x"], env := none })]).2.2
      "a" { command := some "c", args := some ["x"], env := none }
      (by decide) "c" rfl (by decide)
  exact ⟨e, hmem, hc, hargs ["x"] rfl (by decide)⟩

/-! ## Claim C8: amended theorem -/

theorem dropWhile_head?_not (p : Char → Bool) (m : List Char) :
    ∀ c, (m.dropWhile p).head? = some c → p c = false := by
  induction m with
  | nil => intro c h; simp at h
  | cons a as ih =>
    intro c h
    by_cases hp : p a
    · rw [List.dropWhile_cons_of_pos hp] at h
      exact ih c h
    · rw [List.dropWhile_cons_of_neg hp] at h
      simp at h
      subst h
      simpa using hp

theorem stripTrailHyphens_getLast? (l : List Char) :
    ∀ c, (stripTrailHyphens l).getLast? = some c → c ≠ '-' := by
  intro c h
  unfold stripTrailHyphens at h
  rw [List.getLast?_reverse] at h
  have := dropWhile_head?_not (· = '-') l.reverse c h
  simpa using this

theorem stripTrailHyphens_length_le (l : List Char) :
    (stripTrailHyphens l).length ≤ l.length := by
  unfold stripTrailHyphens
  calc ((l.reverse.dropWhile (· = '-')).reverse).length
      = (l.reverse.dropWhile (· = '-')).length := List.length_reverse _
    _ ≤ l.reverse.length := (List.dropWhile_sublist _).length_le
    _ = l.length := List.length_reverse _

theorem preNormalizeCore_eq_strip (t : List Char) :
    preNormalizeCore t = stripTrailHyphens (stripLeadHyphens
      (replRuns (fun c => c = '-') '-'
        (replRuns (fun c => !goodChar c) '-'
          (replRuns (fun c => c = ':' || isWsChar c) '-'
            (replRuns (fun c => c = '\\' || c = '/') '-'
              (t.map Char.toLower)))))) := rfl

/-- normalizeNameCore never exceeds the maximum length. -/
theorem normalizeNameCore_length (t : List Char) :
    (normalizeNameCore t).length ≤ KIRO_SKILL_NAME_MAX_LENGTH := by
  unfold normalizeNameCore
  by_cases h64 : KIRO_SKILL_NAME_MAX_LENGTH < (preNormalizeCore t).length
  · rw [if_pos h64]
    cases hfind : lastIndexOfHyphen ((preNormalizeCore t).take KIRO_SKILL_NAME_MAX_LENGTH) with
    | some i =>
      by_cases hi : 0 < i
      · simp only [hfind, hi, if_pos]
        calc (stripTrailHyphens (((preNormalizeCore t).take KIRO_SKILL_NAME_MAX_LENGTH).take i)).length
            ≤ (((preNormalizeCore t).take KIRO_SKILL_NAME_MAX_LENGTH).take i).length :=
              stripTrailHyphens_length_le _
          _ ≤ ((preNormalizeCore t).take KIRO_SKILL_NAME_MAX_LENGTH).length := by
              rw [List.length_take, List.length_take]; omega
          _ ≤ KIRO_SKILL_NAME_MAX_LENGTH := by rw [List.length_take]; omega
      · simp only [hfind, hi, if_neg, if_false]
        calc (stripTrailHyphens ((preNormalizeCore t).take KIRO_SKILL_NAME_MAX_LENGTH)).length
            ≤ ((preNormalizeCore t).take KIRO_SKILL_NAME_MAX_LENGTH).length :=
              stripTrailHyphens_length_le _
          _ ≤ KIRO_SKILL_NAME_MAX_LENGTH := by rw [List.length_take]; omega
    | none =>
      simp only [hfind]
      calc (stripTrailHyphens ((preNormalizeCore t).take KIRO_SKILL_NAME_MAX_LENGTH)).length
          ≤ ((preNormalizeCore t).take KIRO_SKILL_NAME_MAX_LENGTH).length :=
            stripTrailHyphens_length_le _
        _ ≤ KIRO_SKILL_NAME_MAX_LENGTH := by rw [List.length_take]; omega
  · rw [if_neg h64]
    omega

/-- normalizeNameCore never ends in a hyphen. -/
theorem normalizeNameCore_getLast? (t : List Char) :
    ∀ c, (normalizeNameCore t).getLast? = some c → c ≠ '-' := by
  unfold normalizeNameCore
  by_cases h64 : KIRO_SKILL_NAME_MAX_LENGTH < (preNormalizeCore t).length
  · rw [if_pos h64]
    cases hfind : lastIndexOfHyphen ((preNormalizeCore t).take KIRO_SKILL_NAME_MAX_LENGTH) with
    | some i =>
      by_cases hi : 0 < i
      · simp only [hfind, hi, if_pos]
        exact stripTrailHyphens_getLast? _
      · simp only [hfind, hi, if_neg, if_false]
        exact stripTrailHyphens_getLast? _
    | none =>
      simp only [hfind]
      exact stripTrailHyphens_getLast? _
  · rw [if_neg h64, preNormalizeCore_eq_strip]
    exact stripTrailHyphens_getLast? _

/-- normalizeName is "item" or carries exactly the normalizeNameCore form. -/
theorem normalizeName_data_cases (s : String) :
    normalizeName s = "item" ∨
      (normalizeName s).data = normalizeNameCore (trimChars s.data) := by
  unfold normalizeName
  by_cases ht : trimChars s.data = []
  · rw [if_pos ht]; left; rfl
  · rw [if_neg ht]
    by_cases hz : normalizeNameCore (trimChars s.data) = []
    · rw [if_pos hz]; left; rfl
    · rw [if_neg hz]
      by_cases hl : isLowerAlpha ((normalizeNameCore (trimChars s.data)).headD 'a') = true
      · rw [if_pos hl]; right; rfl
      · rw [if_neg hl]; left; rfl

/-- The truncation rule when the slice has a hyphen at a positive index. -/
theorem normalizeNameCore_trunc_hyphen (t : List Char) (i : Nat)
    (h64 : KIRO_SKILL_NAME_MAX_LENGTH < (preNormalizeCore t).length)
    (hfind : lastIndexOfHyphen ((preNormalizeCore t).take KIRO_SKILL_NAME_MAX_LENGTH) = some i)
    (hi : 0 < i) :
    normalizeNameCore t
      = stripTrailHyphens (((preNormalizeCore t).take KIRO_SKILL_NAME_MAX_LENGTH).take i) := by
  unfold normalizeNameCore
  rw [if_pos h64]
  simp only [hfind, hi, if_pos]

/-- The hard-cut rule when the slice contains no hyphen at all. -/
theorem normalizeNameCore_trunc_nohyphen (t : List Char)
    (h64 : KIRO_SKILL_NAME_MAX_LENGTH < (preNormalizeCore t).length)
    (hfind : lastIndexOfHyphen ((preNormalizeCore t).take KIRO_SKILL_NAME_MAX_LENGTH) = none) :
    normalizeNameCore t = (preNormalizeCore t).take KIRO_SKILL_NAME_MAX_LENGTH := by
  have hnomem : '-' ∉ (preNormalizeCore t).take KIRO_SKILL_NAME_MAX_LENGTH := by
    intro hmem
    unfold lastIndexOfHyphen at hfind
    cases hfi : ((preNormalizeCore t).take KIRO_SKILL_NAME_MAX_LENGTH).reverse.findIdx?
        (· = '-') with
    | some j => rw [hfi] at hfind; simp at hfind
    | none =>
      have := List.findIdx?_eq_none_iff.mp hfi '-' (List.mem_reverse.mpr hmem)
      simp at this
  have hself : stripTrailHyphens ((preNormalizeCore t).take KIRO_SKILL_NAME_MAX_LENGTH)
      = (preNormalizeCore t).take KIRO_SKILL_NAME_MAX_LENGTH := by
    unfold stripTrailHyphens
    rw [List.dropWhile_eq_self_iff.mpr, List.reverse_reverse]
    intro hh
    simp only [decide_eq_true_eq]
    intro heq
    have hmem : ((preNormalizeCore t).take KIRO_SKILL_NAME_MAX_LENGTH).reverse.get ⟨0, hh⟩
        ∈ ((preNormalizeCore t).take KIRO_SKILL_NAME_MAX_LENGTH).reverse :=
      List.get_mem _ _ _
    rw [List.mem_reverse, heq] at hmem
    exact hnomem hmem
  unfold normalizeNameCore
  rw [if_pos h64]
  simp only [hfind]
  exact hself

/-- C8 (amended): normalizeName never exceeds the maximum identifier length
and never ends in a hyphen; whenever the pre-truncation normalized form
exceeds the limit, the 64-character slice is truncated at its last hyphen
when that hyphen sits at a positive index (then re-trimmed), and is
hard-cut at the limit — possibly mid-word — when the slice contains no
hyphen; the non-lowercase-start fallback "item" may still replace the
truncated form. -/
theorem claim8_normalize_length_bound (s : String) :
    (normalizeName s).data.length ≤ KIRO_SKILL_NAME_MAX_LENGTH ∧
    (∀ c, (normalizeName s).data.getLast? = some c → c ≠ '-') ∧
    (normalizeName s = "item" ∨
      (normalizeName s).data = normalizeNameCore (trimChars s.data)) ∧
    (∀ i, KIRO_SKILL_NAME_MAX_LENGTH < (preNormalize s).length →
      lastIndexOfHyphen ((preNormalize s).take KIRO_SKILL_NAME_MAX_LENGTH) = some i →
      0 < i →
      normalizeNameCore (trimChars s.data)
        = stripTrailHyphens (((preNormalize s).take KIRO_SKILL_NAME_MAX_LENGTH).take i)) ∧
    (KIRO_SKILL_NAME_MAX_LENGTH < (preNormalize s).length →
      lastIndexOfHyphen ((preNormalize s).take KIRO_SKILL_NAME_MAX_LENGTH) = none →
      normalizeNameCore (trimChars s.data)
        = (preNormalize s).take KIRO_SKILL_NAME_MAX_LENGTH) := by
  have hcases := normalizeName_data_cases s
  refine ⟨?_, ?_, hcases, ?_, ?_⟩
  · rcases hcases with h | h
    · rw [h]; decide
    · rw [h]; exact normalizeNameCore_length _
  · rcases hcases with h | h
    · rw [h]; intro c hc; simp at hc; subst hc; decide
    · rw [h]; exact normalizeNameCore_getLast? _
  · intro i h64 hfind hi
    exact normalizeNameCore_trunc_hyphen _ i h64 hfind hi
  · intro h64 hfind
    exact normalizeNameCore_trunc_nohyphen _ h64 hfind

/-- Witness for C8: a 60-a, hyphen, 20-b input exceeds the limit and is
truncated at the hyphen boundary, obtained by applying the theorem. -/
theorem claim8_normalize_length_bound_witness :
    (normalizeName ⟨List.replicate 60 'a' ++ '-' :: List.replicate 20 'b'⟩).data.length
        ≤ KIRO_SKILL_NAME_MAX_LENGTH ∧
    normalizeNameCore (trimChars (List.replicate 60 'a' ++ '-' :: List.replicate 20 'b'))
        = stripTrailHyphens
            (((preNormalize ⟨List.replicate 60 'a' ++ '-' :: List.replicate 20 'b'⟩).take
                KIRO_SKILL_NAME_MAX_LENGTH).take 60) := by
  have h := claim8_normalize_length_bound ⟨List.replicate 60 'a' ++ '-' :: List.replicate 20 'b'⟩
  exact ⟨h.1, h.2.2.2.1 60 (by decide) (by decide) (by decide)⟩

/-! ## Claim C2: amended theorem -/

theorem convertCommandToSkill_proj (c : ClaudeCommand) (used : List String)
    (names : List String) :
    (convertCommandToSkill c used names).1.name
        = (uniqueName (normalizeName c.name) used).1 ∧
    (convertCommandToSkill c used names).2
        = (uniqueName (normalizeName c.name) used).2 := by
  cases h : uniqueName (normalizeName c.name) used with
  | mk a b => simp [convertCommandToSkill, h]

theorem mem_insertIfAbsent_of_mem {x y : String} {l : List String} (h : x ∈ l) :
    x ∈ insertIfAbsent y l := by
  unfold insertIfAbsent
  by_cases hm : y ∈ l
  · rw [if_pos hm]; exact h
  · rw [if_neg hm]; exact List.mem_cons_of_mem _ h

theorem self_mem_insertIfAbsent (y : String) (l : List String) :
    y ∈ insertIfAbsent y l := by
  unfold insertIfAbsent
  by_cases hm : y ∈ l
  · rw [if_pos hm]; exact hm
  · rw [if_neg hm]; exact List.mem_cons_self _ _

theorem mem_foldl_insertIfAbsent_of_mem (skills : List ClaudeSkill) :
    ∀ acc x, x ∈ acc →
      x ∈ skills.foldl (fun a sk => insertIfAbsent (normalizeName sk.name) a) acc := by
  induction skills with
  | nil => intro acc x hx; simpa using hx
  | cons sk rest ih =>
    intro acc x hx
    simp only [List.foldl_cons]
    exact ih _ x (mem_insertIfAbsent_of_mem hx)

theorem mem_foldl_insertIfAbsent (l : List ClaudeSkill) :
    ∀ acc (x : ClaudeSkill), x ∈ l →
      normalizeName x.name
        ∈ l.foldl (fun a s => insertIfAbsent (normalizeName s.name) a) acc := by
  induction l with
  | nil => intro acc x hx; simp at hx
  | cons y ys ihy =>
    intro acc x hx
    rcases List.mem_cons.mp hx with rfl | hx'
    · simp only [List.foldl_cons]
      exact mem_foldl_insertIfAbsent_of_mem ys _ _ (self_mem_insertIfAbsent _ _)
    · simp only [List.foldl_cons]
      exact ihy _ x hx'

theorem mem_initialSkillRegistry (p : ClaudePlugin) (sk : ClaudeSkill)
    (h : sk ∈ p.skills) : normalizeName sk.name ∈ initialSkillRegistry p :=
  mem_foldl_insertIfAbsent p.skills [] sk h

theorem convertCommandsGo_fresh (cmds : List ClaudeCommand) :
    ∀ used names,
      (∀ s ∈ (convertCommandsGo cmds used names).1, s.name ∉ used) ∧
      ((convertCommandsGo cmds used names).1.map KiroSkill.name).Nodup := by
  induction cmds with
  | nil =>
    intro used names
    exact ⟨by intro s h; simp [convertCommandsGo] at h, by simp [convertCommandsGo]⟩
  | cons c rest ih =>
    intro used names
    obtain ⟨hproj1, hproj2⟩ := convertCommandToSkill_proj c used names
    cases h1 : convertCommandToSkill c used names with
    | mk sk used' =>
      rw [h1] at hproj1 hproj2
      have hsnd : used' = sk.name :: used := by
        show (sk, used').2 = (sk, used').1.name :: used
        rw [hproj2, hproj1, uniqueName_snd]
      cases h2 : convertCommandsGo rest used' names with
      | mk sks used'' =>
        have hgo : convertCommandsGo (c :: rest) used names = (sk :: sks, used'') := by
          simp [convertCommandsGo, h1, h2]
        obtain ⟨ihFresh, ihNodup⟩ := ih used' names
        rw [h2] at ihFresh ihNodup
        refine ⟨?_, ?_⟩
        · intro s hs
          rw [hgo] at hs
          rcases List.mem_cons.mp hs with heq | hmem
          · subst heq
            show (s, used').1.name ∉ used
            rw [hproj1]
            exact uniqueName_fresh _ _
          · intro habs
            exact ihFresh s hmem (by rw [hsnd]; exact List.mem_cons_of_mem _ habs)
        · rw [hgo]
          simp only [List.map_cons, List.nodup_cons]
          refine ⟨?_, ihNodup⟩
          intro habs
          rw [List.mem_map] at habs
          obtain ⟨s, hmem, hname⟩ := habs
          exact ihFresh s hmem (by rw [hsnd, hname]; exact List.mem_cons_self _ _)

/-- C2 (amended): within the skill namespace the invariant holds — the
generated skill identifiers of one conversion run are pairwise distinct and
distinct from every reserved normalized pass-through skill name, collisions
being resolved by the numeric-suffixing allocator.  (Agent identifiers, by
contrast, are normalized without deduplication and can collide, see the
counterexample.) -/
theorem claim2_skill_namespace_unique (p : ClaudePlugin) :
    ((convertClaudeToKiro p).generatedSkills.map KiroSkill.name).Nodup ∧
    ∀ s ∈ (convertClaudeToKiro p).generatedSkills, ∀ sk ∈ p.skills,
      s.name ≠ normalizeName sk.name := by
  have hgen : (convertClaudeToKiro p).generatedSkills
      = (convertCommandsGo p.commands (initialSkillRegistry p)
          (p.agents.map fun a => normalizeName a.name)).1 := rfl
  obtain ⟨hFresh, hNodup⟩ := convertCommandsGo_fresh p.commands
    (initialSkillRegistry p) (p.agents.map fun a => normalizeName a.name)
  refine ⟨by rw [hgen]; exact hNodup, ?_⟩
  intro s hs sk hsk heq
  rw [hgen] at hs
  apply hFresh s hs
  rw [heq]
  exact mem_initialSkillRegistry p sk hsk

/-- The plugin for the C2 witness: one pass-through skill "plan" and two
commands both named "plan". -/
def pluginC2w : ClaudePlugin :=
  { root := "r", agents := []
    commands := [{ name := "plan", description := none, body := "" },
                 { name := "plan", description := none, body := "" }]
    skills := [{ name := "plan", sourceDir := "d" }]
    mcpServers := none, hooks := none, claudeMdContent := none }

/-- Witness for C2: the suffixed generated names are distinct from the
reserved pass-through name, by applying the theorem. -/
theorem claim2_skill_namespace_unique_witness :
    ((convertClaudeToKiro pluginC2w).generatedSkills.map KiroSkill.name).Nodup ∧
    ((convertClaudeToKiro pluginC2w).generatedSkills.get ⟨0, by decide⟩).name
      ≠ normalizeName "plan" := by
  refine ⟨(claim2_skill_namespace_unique pluginC2w).1, ?_⟩
  exact (claim2_skill_namespace_unique pluginC2w).2 _ (List.get_mem _ _ _)
    { name := "plan", sourceDir := "d" } (by decide)

/-! ## Claim C3: amended theorem -/

theorem trimChars_ne_nil {l : List Char} {c : Char} (hmem : c ∈ l)
    (hc : isWsChar c = false) : trimChars l ≠ [] := by
  intro h
  unfold trimChars at h
  have h2 : (l.dropWhile isWsChar).reverse.dropWhile isWsChar = [] := by
    have := congrArg List.reverse h
    simpa using this
  have hall2 : ∀ x ∈ (l.dropWhile isWsChar).reverse, isWsChar x = true :=
    List.dropWhile_eq_nil_iff.mp h2
  have hall : ∀ x ∈ l, isWsChar x = true := by
    intro x hx
    have hsplit : x ∈ l.takeWhile isWsChar ++ l.dropWhile isWsChar := by
      rw [List.takeWhile_append_dropWhile]
      exact hx
    rcases List.mem_append.mp hsplit with htk | hdr
    · exact List.mem_takeWhile_imp htk
    · exact hall2 x (List.mem_reverse.mpr hdr)
  rw [hall c hmem] at hc
  cases hc

theorem string_ne_empty_of_data_ne_nil {s : String} (h : s.data ≠ []) : s ≠ "" := by
  intro heq
  apply h
  rw [heq]

theorem convertAgentToKiroAgent_promptContent (agent : ClaudeAgent)
    (names : List String) :
    (convertAgentToKiroAgent agent names).promptContent =
      (let body := transformContentForKiro (trimStr agent.body) names
       let body := match agent.capabilities with
         | some caps =>
           if caps ≠ [] then
             trimStr ("## Capabilities\n"
               ++ String.intercalate "\n" (caps.map (fun c => "- " ++ c)) ++ "\n\n" ++ body)
           else body
         | none => body
       if body.data.length = 0 then
         "Instructions converted from the " ++ agent.name ++ " agent."
       else body) := rfl

theorem hash_mem_capabilities_data (x : String) :
    '#' ∈ ("## Capabilities\n" ++ x).data := by
  rw [String.data_append]
  exact List.mem_append_left _ (by decide)

theorem mem_data_append_left {c : Char} (a b : String) (h : c ∈ a.data) :
    c ∈ (a ++ b).data := by
  rw [String.data_append]
  exact List.mem_append_left _ h

/-- C3 (amended): the converter transforms the (trimmed) source body first
and then prefixes the capability list onto the transformed text — the
capability lines themselves bypass the transformation engine; and for every
agent the resulting prompt body is never empty (an empty transformed body
is replaced by a generated placeholder sentence, and a capability prefix
always yields nonempty text). -/
theorem claim3_agent_prompt_body (agent : ClaudeAgent) (names : List String) :
    (∀ caps, agent.capabilities = some caps → caps ≠ [] →
      (convertAgentToKiroAgent agent names).promptContent
        = trimStr ("## Capabilities\n"
            ++ String.intercalate "\n" (caps.map (fun c => "- " ++ c)) ++ "\n\n"
            ++ transformContentForKiro (trimStr agent.body) names)) ∧
    (convertAgentToKiroAgent agent names).promptContent ≠ "" := by
  have hmemCap : ∀ (i body : String),
      '#' ∈ ("## Capabilities\n" ++ i ++ "\n\n" ++ body).data := by
    intro i body
    exact mem_data_append_left _ _ (mem_data_append_left _ _
      (mem_data_append_left _ _ (by decide : '#' ∈ ("## Capabilities\n" : String).data)))
  have htrimCap : ∀ (i body : String),
      ¬ ((trimStr ("## Capabilities\n" ++ i ++ "\n\n" ++ body)).data.length = 0) := by
    intro i body hlen
    rw [List.length_eq_zero] at hlen
    exact trimChars_ne_nil (hmemCap i body) (by decide) hlen
  constructor
  · intro caps hcaps hne
    rw [convertAgentToKiroAgent_promptContent]
    simp only [hcaps]
    rw [if_pos hne, if_neg (htrimCap _ _)]
  · by_cases hc : ∃ caps, agent.capabilities = some caps ∧ caps ≠ []
    · obtain ⟨caps, hcaps, hne⟩ := hc
      rw [convertAgentToKiroAgent_promptContent]
      simp only [hcaps]
      rw [if_pos hne, if_neg (htrimCap _ _)]
      apply string_ne_empty_of_data_ne_nil
      intro habs
      exact trimChars_ne_nil (hmemCap _ _) (by decide) habs
    · have hbody : (convertAgentToKiroAgent agent names).promptContent =
          (if (transformContentForKiro (trimStr agent.body) names).data.length = 0 then
            "Instructions converted from the " ++ agent.name ++ " agent."
          else transformContentForKiro (trimStr agent.body) names) := by
        rw [convertAgentToKiroAgent_promptContent]
        cases hcap2 : agent.capabilities with
        | none => simp only [hcap2]
        | some caps =>
          have hcaps_empty : caps = [] := by
            by_contra hne
            exact hc ⟨caps, hcap2, hne⟩
          subst hcaps_empty
          simp only [hcap2]
          rw [if_neg (show ¬(([] : List String) ≠ []) by simp)]
      rw [hbody]
      by_cases hlen : (transformContentForKiro (trimStr agent.body) names).data.length = 0
      · rw [if_pos hlen]
        apply string_ne_empty_of_data_ne_nil
        rw [String.data_append]
        intro habs
        have h1 := (List.append_eq_nil.mp habs).1
        rw [String.data_append] at h1
        exact absurd (List.append_eq_nil.mp h1).1 (by decide)
      · rw [if_neg hlen]
        apply string_ne_empty_of_data_ne_nil
        intro habs
        rw [habs] at hlen
        simp at hlen

/-- Witness for C3: a concrete agent with one capability, by applying the
theorem. -/
theorem claim3_agent_prompt_body_witness :
    (convertAgentToKiroAgent
        { name := "rev", description := none, capabilities := some ["cap one"], body := "b" }
        []).promptContent
      = trimStr ("## Capabilities\n"
          ++ String.intercalate "\n" (["cap one"].map (fun c => "- " ++ c)) ++ "\n\n"
          ++ transformContentForKiro (trimStr "b") []) ∧
    (convertAgentToKiroAgent
        { name := "rev", description := none, capabilities := some ["cap one"], body := "b" }
        []).promptContent ≠ "" := by
  have h := claim3_agent_prompt_body
    { name := "rev", description := none, capabilities := some ["cap one"], body := "b" } []
  exact ⟨h.1 ["cap one"] rfl (by decide), h.2⟩

/-! ## Claim C9 -/

theorem mem_replRunsGo {p : Char → Bool} {rep : Char} {c : Char} :
    ∀ {b : Bool} {l : List Char}, c ∈ replRunsGo p rep b l →
      c = rep ∨ (c ∈ l ∧ p c = false) := by
  intro b l
  induction l generalizing b with
  | nil => intro h; simp [replRunsGo] at h
  | cons a as ih =>
    intro h
    unfold replRunsGo at h
    by_cases hp : p a
    · rw [if_pos hp] at h
      by_cases hb : b
      · subst hb
        simp only [if_pos] at h
        rcases ih h with hl | ⟨hmem, hpc⟩
        · exact Or.inl hl
        · exact Or.inr ⟨List.mem_cons_of_mem _ hmem, hpc⟩
      · simp only [hb, if_false, Bool.false_eq_true, if_neg] at h
        rcases List.mem_cons.mp h with rfl | h'
        · exact Or.inl rfl
        · rcases ih h' with hl | ⟨hmem, hpc⟩
          · exact Or.inl hl
          · exact Or.inr ⟨List.mem_cons_of_mem _ hmem, hpc⟩
    · rw [if_neg hp] at h
      rcases List.mem_cons.mp h with rfl | h'
      · right
        exact ⟨List.mem_cons_self _ _, by simpa using hp⟩
      · rcases ih h' with hl | ⟨hmem, hpc⟩
        · exact Or.inl hl
        · exact Or.inr ⟨List.mem_cons_of_mem _ hmem, hpc⟩

theorem mem_stripTrailHyphens {c : Char} {l : List Char}
    (h : c ∈ stripTrailHyphens l) : c ∈ l := by
  unfold stripTrailHyphens at h
  rw [List.mem_reverse] at h
  have := (List.dropWhile_sublist (l := l.reverse) (· = '-')).subset h
  rwa [List.mem_reverse] at this

theorem mem_preNormalizeCore_good {c : Char} {t : List Char}
    (h : c ∈ preNormalizeCore t) : goodChar c = true := by
  unfold preNormalizeCore at h
  have h1 := mem_stripTrailHyphens h
  have h2 : c ∈ replRuns (fun c => c = '-') '-'
      (replRuns (fun c => !goodChar c) '-'
        (replRuns (fun c => c = ':' || isWsChar c) '-'
          (replRuns (fun c => c = '\\' || c = '/') '-' (t.map Char.toLower)))) :=
    (List.dropWhile_sublist _).subset h1
  rcases mem_replRunsGo h2 with rfl | ⟨h3, _⟩
  · decide
  · rcases mem_replRunsGo h3 with rfl | ⟨_, hgood⟩
    · decide
    · simpa using hgood

theorem mem_normalizeNameCore_good {c : Char} {t : List Char}
    (h : c ∈ normalizeNameCore t) : goodChar c = true := by
  unfold normalizeNameCore at h
  by_cases h64 : KIRO_SKILL_NAME_MAX_LENGTH < (preNormalizeCore t).length
  · rw [if_pos h64] at h
    have h1 := mem_stripTrailHyphens h
    apply mem_preNormalizeCore_good (t := t)
    split at h1
    · split at h1
      · exact List.take_subset _ _ (List.take_subset _ _ h1)
      · exact List.take_subset _ _ h1
    · exact List.take_subset _ _ h1
  · rw [if_neg h64] at h
    exact mem_preNormalizeCore_good h

theorem mem_normalizeName_good (s : String) :
    ∀ c ∈ (normalizeName s).data, goodChar c = true := by
  intro c hc
  unfold normalizeName at hc
  by_cases ht : trimChars s.data = []
  · rw [if_pos ht] at hc
    have hd : ("item" : String).data = ['i', 't', 'e', 'm'] := rfl
    rw [hd] at hc
    simp only [List.mem_cons, List.not_mem_nil, or_false] at hc
    rcases hc with rfl | rfl | rfl | rfl <;> decide
  · rw [if_neg ht] at hc
    by_cases hz : normalizeNameCore (trimChars s.data) = []
    · rw [if_pos hz] at hc
      have hd : ("item" : String).data = ['i', 't', 'e', 'm'] := rfl
      rw [hd] at hc
      simp only [List.mem_cons, List.not_mem_nil, or_false] at hc
      rcases hc with rfl | rfl | rfl | rfl <;> decide
    · rw [if_neg hz] at hc
      by_cases hl : isLowerAlpha ((normalizeNameCore (trimChars s.data)).headD 'a') = true
      · rw [if_pos hl] at hc
        exact mem_normalizeNameCore_good hc
      · rw [if_neg hl] at hc
        have hd : ("item" : String).data = ['i', 't', 'e', 'm'] := rfl
        rw [hd] at hc
        simp only [List.mem_cons, List.not_mem_nil, or_false] at hc
        rcases hc with rfl | rfl | rfl | rfl <;> decide

theorem digitChar_isDigit {r : Nat} (h : r < 10) : (Nat.digitChar r).isDigit = true := by
  interval_cases r <;> decide

theorem mem_natReprGo_digit {c : Char} :
    ∀ {f n : Nat}, c ∈ natReprGo f n → c.isDigit = true := by
  intro f
  induction f with
  | zero =>
    intro n h
    cases n with
    | zero => simp [natReprGo] at h
    | succ n => simp [natReprGo] at h
  | succ f ih =>
    intro n h
    cases n with
    | zero => simp [natReprGo] at h
    | succ n =>
      rw [natReprGo] at h
      rcases List.mem_append.mp h with h' | h'
      · exact ih h'
      · simp at h'
        subst h'
        exact digitChar_isDigit (Nat.mod_lt _ (by norm_num))

theorem mem_natRepr_digit (n : Nat) : ∀ c ∈ (natRepr n).data, c.isDigit = true := by
  intro c hc
  unfold natRepr at hc
  by_cases hn : n = 0
  · rw [if_pos hn] at hc
    have hd : ("0" : String).data = ['0'] := rfl
    rw [hd] at hc
    simp only [List.mem_cons, List.not_mem_nil, or_false] at hc
    subst hc
    decide
  · rw [if_neg hn] at hc
    exact mem_natReprGo_digit hc

theorem goodChar_of_isDigit {c : Char} (h : c.isDigit = true) : goodChar c = true := by
  unfold goodChar
  rw [h]
  simp

theorem uniqueNameProbe_shape (base : String) (used : List String) :
    ∀ f i, ∃ j, uniqueNameProbe base used f i = base ++ "-" ++ natRepr j := by
  intro f
  induction f with
  | zero => intro i; exact ⟨i, rfl⟩
  | succ f ih =>
    intro i
    unfold uniqueNameProbe
    by_cases hc : (base ++ "-" ++ natRepr i) ∈ used
    · simp only [if_pos hc]
      exact ih (i + 1)
    · simp only [if_neg hc]
      exact ⟨i, rfl⟩

theorem uniqueName_data_chars (base : String) (used : List String)
    (hbase : ∀ c ∈ base.data, goodChar c = true) :
    ∀ c ∈ (uniqueName base used).1.data, goodChar c = true := by
  intro c hc
  unfold uniqueName at hc
  by_cases hb : base ∈ used
  · simp only [if_pos hb] at hc
    obtain ⟨j, hj⟩ := uniqueNameProbe_shape base used (used.length + 1) 2
    rw [hj] at hc
    rw [String.data_append, String.data_append] at hc
    rcases List.mem_append.mp hc with h' | h'
    · rcases List.mem_append.mp h' with h'' | h''
      · exact hbase c h''
      · have hd : ("-" : String).data = ['-'] := rfl
        rw [hd] at h''
        simp only [List.mem_cons, List.not_mem_nil, or_false] at h''
        subst h''
        decide
    · exact goodChar_of_isDigit (mem_natRepr_digit j c h')
  · simp only [if_neg hb] at hc
    exact hbase c hc

theorem containsSeq_head_mem {c : Char} {pat l : List Char}
    (hp : pat = c :: pat.tail) (h : containsSeq pat l = true) : c ∈ l := by
  induction l with
  | nil =>
    unfold containsSeq at h
    rw [hp] at h
    simp [List.isPrefixOf] at h
  | cons a as ih =>
    unfold containsSeq at h
    rcases Bool.or_eq_true _ _ |>.mp h with h' | h'
    · rw [hp] at h'
      cases hpre : List.isPrefixOf (c :: pat.tail) (a :: as) with
      | false => rw [hpre] at h'; cases h'
      | true =>
        exact ( List.isPrefixOf_iff_prefix.mp hpre).subset
          (List.mem_cons_self c pat.tail)
    · exact List.mem_cons_of_mem _ (ih h')

theorem unsafePathName_eq_false_of_good {name : String}
    (h : ∀ c ∈ name.data, goodChar c = true) : unsafePathName name = false := by
  unfold unsafePathName
  have hdot : containsSeq "..".data name.data = false := by
    cases hcs : containsSeq "..".data name.data with
    | false => rfl
    | true =>
      have hmem : '.' ∈ name.data :=
        containsSeq_head_mem (by decide) hcs
      have := h '.' hmem
      simp [goodChar, isLowerAlpha] at this
  have hslash : name.data.contains '/' = false := by
    cases hcs : name.data.contains '/' with
    | false => rfl
    | true =>
      have hmem : '/' ∈ name.data := by
        have := List.mem_of_elem_eq_true hcs
        exact this
      have := h '/' hmem
      simp [goodChar, isLowerAlpha] at this
  have hback : name.data.contains '\\' = false := by
    cases hcs : name.data.contains '\\' with
    | false => rfl
    | true =>
      have hmem : '\\' ∈ name.data := by
        have := List.mem_of_elem_eq_true hcs
        exact this
      have := h '\\' hmem
      simp [goodChar, isLowerAlpha] at this
  rw [hdot, hslash, hback]
  rfl

theorem validatePathSafe_eq_none_of_good {name : String} (label : String)
    (h : ∀ c ∈ name.data, goodChar c = true) :
    validatePathSafe name label = none := by
  unfold validatePathSafe
  rw [if_neg]
  rw [unsafePathName_eq_false_of_good h]
  simp

theorem convertCommandsGo_names_good (cmds : List ClaudeCommand) :
    ∀ used names s, s ∈ (convertCommandsGo cmds used names).1 →
      ∀ c ∈ s.name.data, goodChar c = true := by
  induction cmds with
  | nil =>
    intro used names s hs
    simp [convertCommandsGo] at hs
  | cons c rest ih =>
    intro used names s hs
    obtain ⟨hproj1, hproj2⟩ := convertCommandToSkill_proj c used names
    cases h1 : convertCommandToSkill c used names with
    | mk sk used' =>
      rw [h1] at hproj1 hproj2
      cases h2 : convertCommandsGo rest used' names with
      | mk sks used'' =>
        have hgo : convertCommandsGo (c :: rest) used names = (sk :: sks, used'') := by
          simp [convertCommandsGo, h1, h2]
        rw [hgo] at hs
        rcases List.mem_cons.mp hs with rfl | hmem
        · have : s.name = (uniqueName (normalizeName c.name) used).1 := hproj1
          rw [this]
          exact uniqueName_data_chars _ _ (mem_normalizeName_good c.name)
        · intro ch hch
          have := ih used' names s (by rw [h2]; exact hmem)
          exact this ch hch

/-- C9: every agent identifier and every generated-skill identifier produced
by the converter is path-safe: normalizeName only emits characters in
[a-z0-9_-] and uniqueName only appends a hyphen and digits, so the
identifier contains no "..", "/" or backslash and the writer's path-safety
raise (validatePathSafe) is unreachable for these records. -/
theorem claim9_converter_ids_path_safe (p : ClaudePlugin) :
    (∀ a ∈ (convertClaudeToKiro p).agents,
      unsafePathName a.name = false ∧ validatePathSafe a.name "agent" = none) ∧
    (∀ s ∈ (convertClaudeToKiro p).generatedSkills,
      unsafePathName s.name = false ∧ validatePathSafe s.name "skill" = none) := by
  constructor
  · intro a ha
    have hmap : (convertClaudeToKiro p).agents
        = p.agents.map (fun ag => convertAgentToKiroAgent ag
            (p.agents.map fun x => normalizeName x.name)) := rfl
    rw [hmap] at ha
    rw [List.mem_map] at ha
    obtain ⟨ag, _, rfl⟩ := ha
    have hname : (convertAgentToKiroAgent ag
        (p.agents.map fun x => normalizeName x.name)).name = normalizeName ag.name := rfl
    rw [hname]
    exact ⟨unsafePathName_eq_false_of_good (mem_normalizeName_good ag.name),
      validatePathSafe_eq_none_of_good _ (mem_normalizeName_good ag.name)⟩
  · intro s hs
    have hgen : (convertClaudeToKiro p).generatedSkills
        = (convertCommandsGo p.commands (initialSkillRegistry p)
            (p.agents.map fun a => normalizeName a.name)).1 := rfl
    rw [hgen] at hs
    have hgood := convertCommandsGo_names_good p.commands _ _ s hs
    exact ⟨unsafePathName_eq_false_of_good hgood,
      validatePathSafe_eq_none_of_good _ hgood⟩

/-- Witness for C9: path safety of the identifiers produced for a concrete
plugin, by applying the theorem. -/
theorem claim9_converter_ids_path_safe_witness :
    unsafePathName ((convertClaudeToKiro pluginC2w).generatedSkills.get ⟨0, by decide⟩).name
        = false ∧
    validatePathSafe ((convertClaudeToKiro pluginC2w).generatedSkills.get
        ⟨0, by decide⟩).name "skill" = none :=
  (claim9_converter_ids_path_safe pluginC2w).2 _ (List.get_mem _ _ _)

/-! ## Claim C5 -/

theorem objGet_nil (k : String) : objGet [] k = none := rfl

theorem objGet_cons_pos {kv : String × Json} {fields : List (String × Json)}
    {k : String} (h : kv.1 = k) : objGet (kv :: fields) k = some kv.2 := by
  unfold objGet
  rw [List.find?_cons_of_pos]
  · rfl
  · simpa using h

theorem objGet_cons_neg {kv : String × Json} {fields : List (String × Json)}
    {k : String} (h : ¬ kv.1 = k) : objGet (kv :: fields) k = objGet fields k := by
  unfold objGet
  rw [List.find?_cons_of_neg]
  simpa using h

theorem objGet_append (x y : List (String × Json)) (k : String) :
    objGet (x ++ y) k = match objGet x k with
      | some v => some v
      | none => objGet y k := by
  induction x with
  | nil => simp [objGet]
  | cons kv rest ih =>
    by_cases hk : kv.1 = k
    · rw [List.cons_append, objGet_cons_pos hk, objGet_cons_pos hk]
    · rw [List.cons_append, objGet_cons_neg hk, objGet_cons_neg hk, ih]

theorem objGet_map_update (a b : List (String × Json)) (k : String) :
    objGet (a.map (fun kv => (kv.1, (objGet b kv.1).getD kv.2))) k
      = (objGet a k).map (fun v => (objGet b k).getD v) := by
  induction a with
  | nil => simp [objGet]
  | cons kv rest ih =>
    by_cases hk : kv.1 = k
    · rw [List.map_cons,
        objGet_cons_pos (show ((kv.1, (objGet b kv.1).getD kv.2) : String × Json).1 = k from hk),
        objGet_cons_pos hk]
      rw [hk]
      rfl
    · rw [List.map_cons,
        objGet_cons_neg (show ¬((kv.1, (objGet b kv.1).getD kv.2) : String × Json).1 = k from hk),
        objGet_cons_neg hk, ih]

theorem objGet_filter_keydep (b : List (String × Json)) (q : String → Bool) (k : String) :
    objGet (b.filter (fun kv => q kv.1)) k = if q k = true then objGet b k else none := by
  induction b with
  | nil => simp [objGet]
  | cons kv rest ih =>
    cases hq : q kv.1 with
    | true =>
      rw [List.filter_cons_of_pos (by simpa using hq)]
      by_cases hk : kv.1 = k
      · rw [objGet_cons_pos hk, objGet_cons_pos hk]
        rw [hk] at hq
        rw [if_pos hq]
      · rw [objGet_cons_neg hk, objGet_cons_neg hk, ih]
    | false =>
      rw [List.filter_cons_of_neg (by simpa using hq)]
      by_cases hk : kv.1 = k
      · rw [ih]
        rw [hk] at hq
        rw [if_neg (by simp [hq]), if_neg (by simp [hq])]
      · rw [ih, objGet_cons_neg hk]

theorem any_key_eq_false_iff (a : List (String × Json)) (k : String) :
    (a.any (fun kv' => kv'.1 = k)) = false ↔ objGet a k = none := by
  induction a with
  | nil => simp [objGet]
  | cons kv rest ih =>
    by_cases hk : kv.1 = k
    · rw [objGet_cons_pos hk]
      simp [hk]
    · rw [objGet_cons_neg hk]
      simp only [List.any_cons, Bool.or_eq_false_iff]
      constructor
      · intro ⟨_, h2⟩; exact ih.mp h2
      · intro h
        exact ⟨by simp [hk], ih.mpr h⟩

/-- The JavaScript-spread lookup law: a key found in the first object gets
the second object's value on collision, otherwise its own; keys only in the
second object are looked up there. -/
theorem objGet_spreadObj (a b : List (String × Json)) (k : String) :
    objGet (spreadObj a b) k = match objGet a k with
      | some v => some ((objGet b k).getD v)
      | none => objGet b k := by
  unfold spreadObj
  rw [objGet_append, objGet_map_update,
    objGet_filter_keydep b (fun x => !(a.any (fun kv' => kv'.1 = x))) k]
  cases ha : objGet a k with
  | some v => simp
  | none =>
    have hany : (a.any (fun kv' => kv'.1 = k)) = false := (any_key_eq_false_iff a k).mpr ha
    simp [hany]

theorem objGet_eq_none_of_not_key {m : List (String × Json)} {k : String}
    (h : ∀ kv ∈ m, kv.1 ≠ k) : objGet m k = none := by
  induction m with
  | nil => rfl
  | cons kv rest ih =>
    rw [objGet_cons_neg (h kv (List.mem_cons_self _ _))]
    exact ih (fun kv' h' => h kv' (List.mem_cons_of_mem _ h'))

theorem objGet_mapped_servers_not_mem (servers : List (String × KiroMcpServer))
    (n : String) (h : n ∉ servers.map Prod.fst) :
    objGet (servers.map (fun kv => (kv.1, kiroMcpServerToJson kv.2))) n = none := by
  apply objGet_eq_none_of_not_key
  intro kv hkv hk
  rw [List.mem_map] at hkv
  obtain ⟨kv0, hkv0, rfl⟩ := hkv
  apply h
  rw [List.mem_map]
  exact ⟨kv0, hkv0, hk⟩

theorem objGet_mapped_servers_mem (servers : List (String × KiroMcpServer))
    (n : String) (s : KiroMcpServer) (hmem : (n, s) ∈ servers)
    (hnodup : (servers.map Prod.fst).Nodup) :
    objGet (servers.map (fun kv => (kv.1, kiroMcpServerToJson kv.2))) n
      = some (kiroMcpServerToJson s) := by
  induction servers with
  | nil => simp at hmem
  | cons kv rest ih =>
    rw [List.map_cons, List.nodup_cons] at hnodup
    rcases List.mem_cons.mp hmem with heq | hmem'
    · subst heq
      rw [List.map_cons, objGet_cons_pos rfl]
    · by_cases hk : kv.1 = n
      · exfalso
        apply hnodup.1
        rw [hk, List.mem_map]
        exact ⟨(n, s), hmem', rfl⟩
      · rw [List.map_cons, objGet_cons_neg hk]
        exact ih hmem' hnodup.2

/-- C5: writing a bundle with MCP servers over a pre-existing parsed settings
file preserves every existing top-level key other than mcpServers, replaces
the mcpServers key by the key-by-key merge in which every existing server
not in the bundle is preserved, every bundle server is added, and on a
name collision the bundle's entry wins; an unparseable existing file is
merged exactly like an absent one (not fatal), and the writer still emits
the backup and the merged write. -/
theorem claim5_merge_preservation (fields so : List (String × Json))
    (servers : List (String × KiroMcpServer)) (paths : KiroPaths)
    (hso : objGet fields "mcpServers" = some (Json.obj so)) :
    (∀ k, k ≠ "mcpServers" →
      objGet (mergeMcpConfig (McpFileState.parsed fields) servers) k = objGet fields k) ∧
    (objGet (mergeMcpConfig (McpFileState.parsed fields) servers) "mcpServers"
      = some (Json.obj (spreadObj so
          (servers.map (fun kv => (kv.1, kiroMcpServerToJson kv.2)))))) ∧
    (∀ n, n ∉ servers.map Prod.fst →
      objGet (spreadObj so (servers.map (fun kv => (kv.1, kiroMcpServerToJson kv.2)))) n
        = objGet so n) ∧
    (∀ n s, (n, s) ∈ servers → (servers.map Prod.fst).Nodup →
      objGet (spreadObj so (servers.map (fun kv => (kv.1, kiroMcpServerToJson kv.2)))) n
        = some (kiroMcpServerToJson s)) ∧
    (mergeMcpConfig McpFileState.unparseable servers
      = mergeMcpConfig McpFileState.absent servers) ∧
    (servers ≠ [] →
      writeMcpSection paths servers (McpFileState.parsed fields)
        = ([FileOp.backupFile (paths.settingsDir ++ ["mcp.json"]),
            FileOp.writeJsonFile (paths.settingsDir ++ ["mcp.json"])
              (Json.obj (mergeMcpConfig (McpFileState.parsed fields) servers))], []) ∧
      writeMcpSection paths servers McpFileState.unparseable
        = ([FileOp.backupFile (paths.settingsDir ++ ["mcp.json"]),
            FileOp.writeJsonFile (paths.settingsDir ++ ["mcp.json"])
              (Json.obj (mergeMcpConfig McpFileState.absent servers))], 
           ["Warning: existing mcp.json could not be parsed and will be replaced."])) := by
  have hmerge : mergeMcpConfig (McpFileState.parsed fields) servers
      = spreadObj fields
          [("mcpServers", Json.obj (spreadObj so
            (servers.map (fun kv => (kv.1, kiroMcpServerToJson kv.2)))))] := by
    simp only [mergeMcpConfig]
    rw [hso]
  refine ⟨?_, ?_, ?_, ?_, rfl, ?_⟩
  · intro k hk
    rw [hmerge, objGet_spreadObj]
    have hsingle : objGet [("mcpServers", Json.obj (spreadObj so
        (servers.map (fun kv => (kv.1, kiroMcpServerToJson kv.2)))))] k = none := by
      rw [objGet_cons_neg (by simpa using (Ne.symm hk)), objGet_nil]
    rw [hsingle]
    cases objGet fields k <;> simp
  · rw [hmerge, objGet_spreadObj]
    have hsingle : objGet [("mcpServers", Json.obj (spreadObj so
        (servers.map (fun kv => (kv.1, kiroMcpServerToJson kv.2)))))] "mcpServers"
        = some (Json.obj (spreadObj so
            (servers.map (fun kv => (kv.1, kiroMcpServerToJson kv.2))))) :=
      objGet_cons_pos rfl
    rw [hso, hsingle]
    rfl
  · intro n hn
    rw [objGet_spreadObj, objGet_mapped_servers_not_mem servers n hn]
    cases objGet so n <;> simp
  · intro n s hmem hnodup
    rw [objGet_spreadObj, objGet_mapped_servers_mem servers n s hmem hnodup]
    cases objGet so n <;> simp
  · intro hs
    constructor
    · unfold writeMcpSection
      rw [if_neg hs]
      rfl
    · unfold writeMcpSection
      rw [if_neg hs]
      rfl

/-- Witness for C5: the spec's own example — an existing file with two
unrelated top-level keys and one existing server, a bundle with one new
server — by applying the theorem. -/
theorem claim5_merge_preservation_witness :
    objGet (mergeMcpConfig (McpFileState.parsed
        [("keyA", Json.str "va"), ("keyB", Json.str "vb"),
         ("mcpServers", Json.obj [("old", Json.obj [("command", Json.str "oc")])])])
        [("new", { command := "nc", args := none, env := none })]) "keyA"
      = some (Json.str "va") ∧
    objGet (spreadObj [("old", Json.obj [("command", Json.str "oc")])]
        ([(("new", { command := "nc", args := none, env := none }) : String × KiroMcpServer)].map
          (fun kv => (kv.1, kiroMcpServerToJson kv.2)))) "old"
      = some (Json.obj [("command", Json.str "oc")]) ∧
    objGet (spreadObj [("old", Json.obj [("command", Json.str "oc")])]
        ([(("new", { command := "nc", args := none, env := none }) : String × KiroMcpServer)].map
          (fun kv => (kv.1, kiroMcpServerToJson kv.2)))) "new"
      = some (kiroMcpServerToJson { command := "nc", args := none, env := none }) := by
  have h := claim5_merge_preservation
    [("keyA", Json.str "va"), ("keyB", Json.str "vb"),
     ("mcpServers", Json.obj [("old", Json.obj [("command", Json.str "oc")])])]
    [("old", Json.obj [("command", Json.str "oc")])]
    [("new", { command := "nc", args := none, env := none })]
    ⟨["r"], ["r"], ["r"], ["r"], ["r"]⟩
    (by rfl)
  refine ⟨?_, ?_, ?_⟩
  · rw [h.1 "keyA" (by decide)]
    rfl
  · rw [h.2.2.1 "old" (by decide)]
    rfl
  · exact h.2.2.2.1 "new" _ (List.mem_singleton.mpr rfl) (by decide)

/-! ## Claim C10 -/

theorem mem_insertIfAbsent_elim {n x : String} {l : List String}
    (h : n ∈ insertIfAbsent x l) : n = x ∨ n ∈ l := by
  unfold insertIfAbsent at h
  by_cases hm : x ∈ l
  · rw [if_pos hm] at h
    exact Or.inr h
  · rw [if_neg hm] at h
    exact List.mem_cons.mp h

theorem mem_foldl_insertIfAbsent_inv (skills : List ClaudeSkill) :
    ∀ acc n, n ∈ skills.foldl (fun a sk => insertIfAbsent (normalizeName sk.name) a) acc →
      n ∈ acc ∨ ∃ sk ∈ skills, n = normalizeName sk.name := by
  induction skills with
  | nil => intro acc n h; exact Or.inl h
  | cons y ys ih =>
    intro acc n h
    simp only [List.foldl_cons] at h
    rcases ih _ n h with hacc | ⟨sk, hsk, heq⟩
    · rcases mem_insertIfAbsent_elim hacc with heq | hacc'
      · exact Or.inr ⟨y, List.mem_cons_self _ _, heq⟩
      · exact Or.inl hacc'
    · exact Or.inr ⟨sk, List.mem_cons_of_mem _ hsk, heq⟩

/-- The plugins for C10's concrete part: a pass-through skill whose raw name
needs normalization but is copied verbatim, and one whose raw name is
path-unsafe and makes the writer raise although its normalized form was the
name that got reserved. -/
def pluginC10 : ClaudePlugin :=
  { root := "r", agents := [], commands := []
    skills := [{ name := "My Skill", sourceDir := "dir" }]
    mcpServers := none, hooks := none, claudeMdContent := none }

def pluginC10b : ClaudePlugin :=
  { root := "r", agents := [], commands := []
    skills := [{ name := "a/b", sourceDir := "dir" }]
    mcpServers := none, hooks := none, claudeMdContent := none }

/-- C10: the converter copies each pass-through skill's source name into the
bundle's skill-directory record verbatim, while only the normalized form is
reserved in the name registry; consequently a skill whose source name needs
normalization is written (or rejected) by the writer under its raw name,
not under the reserved normalized identifier. -/
theorem claim10_passthrough_names_verbatim (p : ClaudePlugin) (n : String) :
    ((convertClaudeToKiro p).skillDirs
        = p.skills.map (fun sk => { name := sk.name, sourceDir := sk.sourceDir })) ∧
    (n ∈ initialSkillRegistry p ↔ ∃ sk ∈ p.skills, n = normalizeName sk.name) ∧
    ((convertClaudeToKiro pluginC10).skillDirs
        = [{ name := "My Skill", sourceDir := "dir" }]) ∧
    (initialSkillRegistry pluginC10 = ["my-skill"]) ∧
    ((writeKiroBundle ["out"] (convertClaudeToKiro pluginC10) McpFileState.absent).ops
        = [FileOp.ensureDir ["out", ".kiro"],
           FileOp.copyDirOp "dir" ["out", ".kiro", "skills", "My Skill"]] ∧
     (writeKiroBundle ["out"] (convertClaudeToKiro pluginC10) McpFileState.absent).error
        = none) ∧
    (initialSkillRegistry pluginC10b = ["a-b"] ∧
     (writeKiroBundle ["out"] (convertClaudeToKiro pluginC10b) McpFileState.absent).error
        = some "skill directory name contains unsafe path characters: a/b") := by
  refine ⟨rfl, ?_, rfl, rfl, ⟨rfl, rfl⟩, rfl, rfl⟩
  constructor
  · intro h
    rcases mem_foldl_insertIfAbsent_inv p.skills [] n h with habs | hex
    · simp at habs
    · exact hex
  · intro ⟨sk, hsk, heq⟩
    rw [heq]
    exact mem_initialSkillRegistry p sk hsk

/-- Witness for C10: the reserved registry entry of the concrete plugin, by
applying the theorem's characterization. -/
theorem claim10_passthrough_names_verbatim_witness :
    "my-skill" ∈ initialSkillRegistry pluginC10 :=
  ((claim10_passthrough_names_verbatim pluginC10 "my-skill").2.1).mpr
    ⟨{ name := "My Skill", sourceDir := "dir" }, by decide,
     by decide⟩

/-! ## Claim C4 -/

theorem validatePathSafe_some_of_violation {name : String} (label : String)
    (h : unsafePathName name = true) :
    validatePathSafe name label
      = some (label ++ " name contains unsafe path characters: " ++ name) := by
  unfold validatePathSafe
  rw [if_pos h]

theorem validatePathSafe_none_iff {name label : String} :
    validatePathSafe name label = none ↔ unsafePathName name = false := by
  unfold validatePathSafe
  cases h : unsafePathName name <;> simp

theorem string_append_right_cancel {a b suf : String} (h : a ++ suf = b ++ suf) :
    a = b := by
  apply string_data_inj
  have hd := congrArg String.data h
  rw [String.data_append, String.data_append] at hd
  exact List.append_cancel_right hd

theorem seg_singleton_inj {base : List String} {x y : String}
    (h : base ++ [x] = base ++ [y]) : x = y := by
  have := List.append_cancel_left h
  simpa using this

theorem seg_pair_inj {base : List String} {x y u v : String}
    (h : base ++ [x, y] = base ++ [u, v]) : x = u ∧ y = v := by
  have := List.append_cancel_left h
  simpa using this

theorem base_dir_ne {base : List String} {d1 d2 : String} (h : d1 ≠ d2)
    (s1 s2 : List String) : (base ++ [d1]) ++ s1 ≠ (base ++ [d2]) ++ s2 := by
  intro heq
  rw [List.append_assoc, List.append_assoc] at heq
  have := List.append_cancel_left heq
  rw [List.singleton_append, List.singleton_append] at this
  exact h (List.cons.injEq .. ▸ this).1

theorem resolveKiroPaths_shape (root : List String) :
    ∃ base, resolveKiroPaths root =
      { kiroDir := base
        agentsDir := base ++ ["agents"]
        skillsDir := base ++ ["skills"]
        steeringDir := base ++ ["steering"]
        settingsDir := base ++ ["settings"] } := by
  unfold resolveKiroPaths
  by_cases h : root.getLast? = some ".kiro"
  · rw [if_pos h]; exact ⟨root, rfl⟩
  · rw [if_neg h]; exact ⟨root ++ [".kiro"], rfl⟩

theorem agentOps_disjoint {paths : KiroPaths} {a b : KiroAgent}
    (hne : b.name ≠ a.name) : ∀ op ∈ agentOps paths b, op ∉ agentOps paths a := by
  intro op hop hmem
  simp only [agentOps, List.mem_cons, List.not_mem_nil, or_false] at hop hmem
  rcases hop with rfl | rfl
  · rcases hmem with heq | heq
    · rw [FileOp.writeJsonFile.injEq] at heq
      exact hne (string_append_right_cancel (seg_singleton_inj heq.1))
    · cases heq
  · rcases hmem with heq | heq
    · cases heq
    · rw [FileOp.writeTextFile.injEq] at heq
      exact hne (string_append_right_cancel (seg_pair_inj heq.1).2)

theorem generatedSkillOps_disjoint {paths : KiroPaths} {a b : KiroSkill}
    (hne : b.name ≠ a.name) :
    ∀ op ∈ generatedSkillOps paths b, op ∉ generatedSkillOps paths a := by
  intro op hop hmem
  simp only [generatedSkillOps, List.mem_cons, List.not_mem_nil, or_false] at hop hmem
  subst hop
  rw [FileOp.writeTextFile.injEq] at hmem
  exact hne (seg_pair_inj hmem.1).1

theorem skillDirOps_disjoint {paths : KiroPaths} {a b : KiroSkillDir}
    (hne : b.name ≠ a.name) :
    ∀ op ∈ skillDirOps paths b, op ∉ skillDirOps paths a := by
  intro op hop hmem
  simp only [skillDirOps, List.mem_cons, List.not_mem_nil, or_false] at hop hmem
  subst hop
  rw [FileOp.copyDirOp.injEq] at hmem
  exact hne (seg_singleton_inj hmem.2)

theorem steeringOps_disjoint {paths : KiroPaths} {a b : KiroSteeringFile}
    (hne : b.name ≠ a.name) :
    ∀ op ∈ steeringOps paths b, op ∉ steeringOps paths a := by
  intro op hop hmem
  simp only [steeringOps, List.mem_cons, List.not_mem_nil, or_false] at hop hmem
  subst hop
  rw [FileOp.writeTextFile.injEq] at hmem
  exact hne (string_append_right_cancel (seg_singleton_inj hmem.1))

theorem writeAgentsGo_ops_mem (paths : KiroPaths) (l : List KiroAgent) :
    ∀ op ∈ (writeAgentsGo paths l).1, ∃ a ∈ l,
      validatePathSafe a.name "agent" = none ∧ op ∈ agentOps paths a := by
  induction l with
  | nil => intro op hop; simp [writeAgentsGo] at hop
  | cons a rest ih =>
    intro op hop
    unfold writeAgentsGo at hop
    cases hv : validatePathSafe a.name "agent" with
    | some e => rw [hv] at hop; simp at hop
    | none =>
      rw [hv] at hop
      simp only [List.mem_append] at hop
      rcases hop with h | h
      · exact ⟨a, List.mem_cons_self _ _, hv, h⟩
      · obtain ⟨a', ha', hv', hop'⟩ := ih op h
        exact ⟨a', List.mem_cons_of_mem _ ha', hv', hop'⟩

theorem writeAgentsGo_err_of_violation {paths : KiroPaths} {l : List KiroAgent}
    {a : KiroAgent} (ha : a ∈ l) (hviol : unsafePathName a.name = true) :
    ((writeAgentsGo paths l).2).isSome = true := by
  induction l with
  | nil => simp at ha
  | cons b rest ih =>
    unfold writeAgentsGo
    cases hv : validatePathSafe b.name "agent" with
    | some e => simp
    | none =>
      rcases List.mem_cons.mp ha with rfl | hmem
      · rw [validatePathSafe_none_iff] at hv
        rw [hv] at hviol
        cases hviol
      · simpa using ih hmem

theorem writeGeneratedSkillsGo_ops_mem (paths : KiroPaths) (l : List KiroSkill) :
    ∀ op ∈ (writeGeneratedSkillsGo paths l).1, ∃ s ∈ l,
      validatePathSafe s.name "skill" = none ∧ op ∈ generatedSkillOps paths s := by
  induction l with
  | nil => intro op hop; simp [writeGeneratedSkillsGo] at hop
  | cons s rest ih =>
    intro op hop
    unfold writeGeneratedSkillsGo at hop
    cases hv : validatePathSafe s.name "skill" with
    | some e => rw [hv] at hop; simp at hop
    | none =>
      rw [hv] at hop
      simp only [List.mem_append] at hop
      rcases hop with h | h
      · exact ⟨s, List.mem_cons_self _ _, hv, h⟩
      · obtain ⟨s', hs', hv', hop'⟩ := ih op h
        exact ⟨s', List.mem_cons_of_mem _ hs', hv', hop'⟩

theorem writeGeneratedSkillsGo_err_of_violation {paths : KiroPaths} {l : List KiroSkill}
    {s : KiroSkill} (hs : s ∈ l) (hviol : unsafePathName s.name = true) :
    ((writeGeneratedSkillsGo paths l).2).isSome = true := by
  induction l with
  | nil => simp at hs
  | cons b rest ih =>
    unfold writeGeneratedSkillsGo
    cases hv : validatePathSafe b.name "skill" with
    | some e => simp
    | none =>
      rcases List.mem_cons.mp hs with rfl | hmem
      · rw [validatePathSafe_none_iff] at hv
        rw [hv] at hviol
        cases hviol
      · simpa using ih hmem

theorem writeSkillDirsGo_ops_mem (paths : KiroPaths) (l : List KiroSkillDir) :
    ∀ op ∈ (writeSkillDirsGo paths l).1, ∃ sd ∈ l,
      validatePathSafe sd.name "skill directory" = none ∧ op ∈ skillDirOps paths sd := by
  induction l with
  | nil => intro op hop; simp [writeSkillDirsGo] at hop
  | cons sd rest ih =>
    intro op hop
    cases hv : validatePathSafe sd.name "skill directory" with
    | some e =>
      have hstep : (writeSkillDirsGo paths (sd :: rest)).1 = [] := by
        simp only [writeSkillDirsGo, hv]
      rw [hstep] at hop
      simp at hop
    | none =>
      by_cases hesc : (!(resolveSegs paths.skillsDir).isPrefixOf
          (resolveSegs (paths.skillsDir ++ [sd.name]))) = true
      · have hstep : (writeSkillDirsGo paths (sd :: rest)).1
            = (writeSkillDirsGo paths rest).1 := by
          simp only [writeSkillDirsGo, hv]
          cases writeSkillDirsGo paths rest with
          | mk ops w =>
            cases w with
            | mk warns err => simp [hesc]
        rw [hstep] at hop
        obtain ⟨sd', hsd', hv', hop'⟩ := ih op hop
        exact ⟨sd', List.mem_cons_of_mem _ hsd', hv', hop'⟩
      · have hstep : (writeSkillDirsGo paths (sd :: rest)).1
            = skillDirOps paths sd ++ (writeSkillDirsGo paths rest).1 := by
          simp only [writeSkillDirsGo, hv]
          cases writeSkillDirsGo paths rest with
          | mk ops w =>
            cases w with
            | mk warns err => simp [hesc]
        rw [hstep] at hop
        simp only [List.mem_append] at hop
        rcases hop with h | h
        · exact ⟨sd, List.mem_cons_self _ _, hv, h⟩
        · obtain ⟨sd', hsd', hv', hop'⟩ := ih op h
          exact ⟨sd', List.mem_cons_of_mem _ hsd', hv', hop'⟩

theorem writeSkillDirsGo_err_of_violation {paths : KiroPaths} {l : List KiroSkillDir}
    {sd : KiroSkillDir} (hsd : sd ∈ l) (hviol : unsafePathName sd.name = true) :
    ((writeSkillDirsGo paths l).2.2).isSome = true := by
  induction l with
  | nil => simp at hsd
  | cons b rest ih =>
    cases hv : validatePathSafe b.name "skill directory" with
    | some e =>
      have hstep : (writeSkillDirsGo paths (b :: rest)).2.2 = some e := by
        simp only [writeSkillDirsGo, hv]
      rw [hstep]
      rfl
    | none =>
      rcases List.mem_cons.mp hsd with rfl | hmem
      · rw [validatePathSafe_none_iff] at hv
        rw [hv] at hviol
        cases hviol
      · have hstep : (writeSkillDirsGo paths (b :: rest)).2.2
            = (writeSkillDirsGo paths rest).2.2 := by
          simp only [writeSkillDirsGo, hv]
          cases writeSkillDirsGo paths rest with
          | mk ops w =>
            cases w with
            | mk warns err =>
              by_cases hesc : (!(resolveSegs paths.skillsDir).isPrefixOf
                  (resolveSegs (paths.skillsDir ++ [b.name]))) = true
              · simp [hesc]
              · simp [hesc]
        rw [hstep]
        exact ih hmem

theorem writeSteeringGo_ops_mem (paths : KiroPaths) (l : List KiroSteeringFile) :
    ∀ op ∈ (writeSteeringGo paths l).1, ∃ f ∈ l,
      validatePathSafe f.name "steering file" = none ∧ op ∈ steeringOps paths f := by
  induction l with
  | nil => intro op hop; simp [writeSteeringGo] at hop
  | cons f rest ih =>
    intro op hop
    unfold writeSteeringGo at hop
    cases hv : validatePathSafe f.name "steering file" with
    | some e => rw [hv] at hop; simp at hop
    | none =>
      rw [hv] at hop
      simp only [List.mem_append] at hop
      rcases hop with h | h
      · exact ⟨f, List.mem_cons_self _ _, hv, h⟩
      · obtain ⟨f', hf', hv', hop'⟩ := ih op h
        exact ⟨f', List.mem_cons_of_mem _ hf', hv', hop'⟩

theorem writeSteeringGo_err_of_violation {paths : KiroPaths} {l : List KiroSteeringFile}
    {f : KiroSteeringFile} (hf : f ∈ l) (hviol : unsafePathName f.name = true) :
    ((writeSteeringGo paths l).2).isSome = true := by
  induction l with
  | nil => simp at hf
  | cons b rest ih =>
    unfold writeSteeringGo
    cases hv : validatePathSafe b.name "steering file" with
    | some e => simp
    | none =>
      rcases List.mem_cons.mp hf with rfl | hmem
      · rw [validatePathSafe_none_iff] at hv
        rw [hv] at hviol
        cases hviol
      · simpa using ih hmem

theorem writeMcpSection_ops_mem (paths : KiroPaths)
    (servers : List (String × KiroMcpServer)) (existing : McpFileState) :
    ∀ op ∈ (writeMcpSection paths servers existing).1,
      op = FileOp.backupFile (paths.settingsDir ++ ["mcp.json"]) ∨
      ∃ j, op = FileOp.writeJsonFile (paths.settingsDir ++ ["mcp.json"]) j := by
  intro op hop
  unfold writeMcpSection at hop
  by_cases hs : servers = []
  · rw [if_pos hs] at hop; simp at hop
  · rw [if_neg hs] at hop
    simp only [List.mem_append] at hop
    rcases hop with h | h
    · by_cases ha : !existing.isAbsent
      · rw [if_pos ha] at h
        simp only [List.mem_singleton] at h
        exact Or.inl h
      · rw [if_neg ha] at h
        simp at h
    · simp only [List.mem_singleton] at h
      exact Or.inr ⟨_, h⟩

/-- The canonical directory layout produced by resolveKiroPaths. -/
def pathsShape (base : List String) : KiroPaths :=
  { kiroDir := base
    agentsDir := base ++ ["agents"]
    skillsDir := base ++ ["skills"]
    steeringDir := base ++ ["steering"]
    settingsDir := base ++ ["settings"] }

theorem resolveKiroPaths_eq_shape (root : List String) :
    ∃ base, resolveKiroPaths root = pathsShape base := by
  obtain ⟨base, h⟩ := resolveKiroPaths_shape root
  exact ⟨base, h⟩

theorem agentOps_genSkillOps_disjoint (base : List String) (a : KiroAgent)
    (s : KiroSkill) :
    ∀ op ∈ agentOps (pathsShape base) a, op ∉ generatedSkillOps (pathsShape base) s := by
  intro op hop hmem
  simp only [agentOps, generatedSkillOps, pathsShape, List.mem_cons, List.not_mem_nil,
    or_false] at hop hmem
  rcases hop with rfl | rfl
  · simp at hmem
  · rw [FileOp.writeTextFile.injEq] at hmem
    exact base_dir_ne (by decide) _ _ hmem.1

theorem agentOps_steeringOps_disjoint (base : List String) (a : KiroAgent)
    (f : KiroSteeringFile) :
    ∀ op ∈ agentOps (pathsShape base) a, op ∉ steeringOps (pathsShape base) f := by
  intro op hop hmem
  simp only [agentOps, steeringOps, pathsShape, List.mem_cons, List.not_mem_nil,
    or_false] at hop hmem
  rcases hop with rfl | rfl
  · simp at hmem
  · rw [FileOp.writeTextFile.injEq] at hmem
    exact base_dir_ne (by decide) _ _ hmem.1

theorem genSkillOps_steeringOps_disjoint (base : List String) (s : KiroSkill)
    (f : KiroSteeringFile) :
    ∀ op ∈ generatedSkillOps (pathsShape base) s,
      op ∉ steeringOps (pathsShape base) f := by
  intro op hop hmem
  simp only [generatedSkillOps, steeringOps, pathsShape, List.mem_cons,
    List.not_mem_nil, or_false] at hop hmem
  subst hop
  rw [FileOp.writeTextFile.injEq] at hmem
  exact base_dir_ne (by decide) _ _ hmem.1

theorem mcpOps_agentOps_disjoint (base : List String) (a : KiroAgent)
    (servers : List (String × KiroMcpServer)) (existing : McpFileState) :
    ∀ op ∈ (writeMcpSection (pathsShape base) servers existing).1,
      op ∉ agentOps (pathsShape base) a := by
  intro op hop hmem
  rcases writeMcpSection_ops_mem (pathsShape base) servers existing op hop with rfl | ⟨j, rfl⟩
  · simp [agentOps] at hmem
  · simp only [agentOps, List.mem_cons, List.not_mem_nil, or_false] at hmem
    rcases hmem with heq | heq
    · rw [FileOp.writeJsonFile.injEq] at heq
      exact base_dir_ne (by decide) _ _ heq.1
    · cases heq

theorem writeKiroBundle_ops_mem (root : List String) (bundle : KiroBundle)
    (existing : McpFileState) :
    ∀ op ∈ (writeKiroBundle root bundle existing).ops,
      op = FileOp.ensureDir (resolveKiroPaths root).kiroDir ∨
      op ∈ (writeAgentsGo (resolveKiroPaths root) bundle.agents).1 ∨
      op ∈ (writeGeneratedSkillsGo (resolveKiroPaths root) bundle.generatedSkills).1 ∨
      op ∈ (writeSkillDirsGo (resolveKiroPaths root) bundle.skillDirs).1 ∨
      op ∈ (writeSteeringGo (resolveKiroPaths root) bundle.steeringFiles).1 ∨
      op ∈ (writeMcpSection (resolveKiroPaths root) bundle.mcpServers existing).1 := by
  intro op hop
  cases hA : writeAgentsGo (resolveKiroPaths root) bundle.agents with
  | mk aOps aErr =>
    cases aErr with
    | some e =>
      have hres : (writeKiroBundle root bundle existing).ops
          = [FileOp.ensureDir (resolveKiroPaths root).kiroDir] ++ aOps := by
        simp only [writeKiroBundle, hA]
      rw [hres] at hop
      rcases List.mem_append.mp hop with h | h
      · left; simpa using h
      · right; left; exact h
    | none =>
      cases hG : writeGeneratedSkillsGo (resolveKiroPaths root) bundle.generatedSkills with
      | mk gOps gErr =>
        cases gErr with
        | some e =>
          have hres : (writeKiroBundle root bundle existing).ops
              = [FileOp.ensureDir (resolveKiroPaths root).kiroDir] ++ aOps ++ gOps := by
            simp only [writeKiroBundle, hA, hG]
          rw [hres] at hop
          rcases List.mem_append.mp hop with h | h
          · rcases List.mem_append.mp h with h' | h'
            · left; simpa using h'
            · right; left; exact h'
          · right; right; left; exact h
        | none =>
          cases hD : writeSkillDirsGo (resolveKiroPaths root) bundle.skillDirs with
          | mk dOps dRest =>
            cases dRest with
            | mk dWarns dErr =>
              cases dErr with
              | some e =>
                have hres : (writeKiroBundle root bundle existing).ops
                    = [FileOp.ensureDir (resolveKiroPaths root).kiroDir]
                        ++ aOps ++ gOps ++ dOps := by
                  simp only [writeKiroBundle, hA, hG, hD]
                rw [hres] at hop
                rcases List.mem_append.mp hop with h | h
                · rcases List.mem_append.mp h with h' | h'
                  · rcases List.mem_append.mp h' with h'' | h''
                    · left; simpa using h''
                    · right; left; exact h''
                  · right; right; left; exact h'
                · right; right; right; left; exact h
              | none =>
                cases hS : writeSteeringGo (resolveKiroPaths root) bundle.steeringFiles with
                | mk sOps sErr =>
                  cases sErr with
                  | some e =>
                    have hres : (writeKiroBundle root bundle existing).ops
                        = [FileOp.ensureDir (resolveKiroPaths root).kiroDir]
                            ++ aOps ++ gOps ++ dOps ++ sOps := by
                      simp only [writeKiroBundle, hA, hG, hD, hS]
                    rw [hres] at hop
                    rcases List.mem_append.mp hop with h | h
                    · rcases List.mem_append.mp h with h' | h'
                      · rcases List.mem_append.mp h' with h'' | h''
                        · rcases List.mem_append.mp h'' with h3 | h3
                          · left; simpa using h3
                          · right; left; exact h3
                        · right; right; left; exact h''
                      · right; right; right; left; exact h'
                    · right; right; right; right; left; exact h
                  | none =>
                    cases hM : writeMcpSection (resolveKiroPaths root)
                        bundle.mcpServers existing with
                    | mk mOps mWarns =>
                      have hres : (writeKiroBundle root bundle existing).ops
                          = [FileOp.ensureDir (resolveKiroPaths root).kiroDir]
                              ++ aOps ++ gOps ++ dOps ++ sOps ++ mOps := by
                        simp only [writeKiroBundle, hA, hG, hD, hS, hM]
                      rw [hres] at hop
                      rcases List.mem_append.mp hop with h | h
                      · rcases List.mem_append.mp h with h' | h'
                        · rcases List.mem_append.mp h' with h'' | h''
                          · rcases List.mem_append.mp h'' with h3 | h3
                            · rcases List.mem_append.mp h3 with h4 | h4
                              · left; simpa using h4
                              · right; left; exact h4
                            · right; right; left; exact h3
                          · right; right; right; left; exact h''
                        · right; right; right; right; left; exact h'
                      · right; right; right; right; right; exact h

theorem writeKiroBundle_error_isSome (root : List String) (bundle : KiroBundle)
    (existing : McpFileState)
    (h : ((writeAgentsGo (resolveKiroPaths root) bundle.agents).2).isSome = true ∨
      ((writeGeneratedSkillsGo (resolveKiroPaths root) bundle.generatedSkills).2).isSome = true ∨
      ((writeSkillDirsGo (resolveKiroPaths root) bundle.skillDirs).2.2).isSome = true ∨
      ((writeSteeringGo (resolveKiroPaths root) bundle.steeringFiles).2).isSome = true) :
    ((writeKiroBundle root bundle existing).error).isSome = true := by
  cases hA : writeAgentsGo (resolveKiroPaths root) bundle.agents with
  | mk aOps aErr =>
    cases aErr with
    | some e =>
      have hres : (writeKiroBundle root bundle existing).error = some e := by
        simp only [writeKiroBundle, hA]
      rw [hres]
      rfl
    | none =>
      cases hG : writeGeneratedSkillsGo (resolveKiroPaths root) bundle.generatedSkills with
      | mk gOps gErr =>
        cases gErr with
        | some e =>
          have hres : (writeKiroBundle root bundle existing).error = some e := by
            simp only [writeKiroBundle, hA, hG]
          rw [hres]
          rfl
        | none =>
          cases hD : writeSkillDirsGo (resolveKiroPaths root) bundle.skillDirs with
          | mk dOps dRest =>
            cases dRest with
            | mk dWarns dErr =>
              cases dErr with
              | some e =>
                have hres : (writeKiroBundle root bundle existing).error = some e := by
                  simp only [writeKiroBundle, hA, hG, hD]
                rw [hres]
                rfl
              | none =>
                cases hS : writeSteeringGo (resolveKiroPaths root) bundle.steeringFiles with
                | mk sOps sErr =>
                  cases sErr with
                  | some e =>
                    have hres : (writeKiroBundle root bundle existing).error = some e := by
                      simp only [writeKiroBundle, hA, hG, hD, hS]
                    rw [hres]
                    rfl
                  | none =>
                    exfalso
                    rcases h with h' | h' | h' | h'
                    · rw [hA] at h'; simp at h'
                    · rw [hG] at h'; simp at h'
                    · rw [hD] at h'; simp at h'
                    · rw [hS] at h'; simp at h'

/-- C4: for every bundle and every record (agent, generated skill,
pass-through skill directory, or steering file) whose identifier contains a
parent-directory traversal token or a path separator, the writer raises —
the result carries an error, aborting the remainder of the whole write —
and no file operation belonging to that record is ever emitted. -/
theorem claim4_writer_path_safety (root : List String) (bundle : KiroBundle)
    (existing : McpFileState) :
    (∀ a ∈ bundle.agents, unsafePathName a.name = true →
      ((writeKiroBundle root bundle existing).error).isSome = true ∧
      ∀ op ∈ (writeKiroBundle root bundle existing).ops,
        op ∉ agentOps (resolveKiroPaths root) a) ∧
    (∀ s ∈ bundle.generatedSkills, unsafePathName s.name = true →
      ((writeKiroBundle root bundle existing).error).isSome = true ∧
      ∀ op ∈ (writeKiroBundle root bundle existing).ops,
        op ∉ generatedSkillOps (resolveKiroPaths root) s) ∧
    (∀ sd ∈ bundle.skillDirs, unsafePathName sd.name = true →
      ((writeKiroBundle root bundle existing).error).isSome = true ∧
      ∀ op ∈ (writeKiroBundle root bundle existing).ops,
        op ∉ skillDirOps (resolveKiroPaths root) sd) ∧
    (∀ f ∈ bundle.steeringFiles, unsafePathName f.name = true →
      ((writeKiroBundle root bundle existing).error).isSome = true ∧
      ∀ op ∈ (writeKiroBundle root bundle existing).ops,
        op ∉ steeringOps (resolveKiroPaths root) f) := by
  obtain ⟨base, hbase⟩ := resolveKiroPaths_eq_shape root
  refine ⟨?_, ?_, ?_, ?_⟩
  · -- unsafe agent record
    intro a ha hviol
    refine ⟨writeKiroBundle_error_isSome root bundle existing
      (Or.inl (writeAgentsGo_err_of_violation ha hviol)), ?_⟩
    intro op hop hmem
    rcases writeKiroBundle_ops_mem root bundle existing op hop with
      rfl | h | h | h | h | h
    · simp [agentOps] at hmem
    · obtain ⟨a', _, hv', hop'⟩ := writeAgentsGo_ops_mem _ _ op h
      have hne : a'.name ≠ a.name := by
        intro heq
        rw [validatePathSafe_none_iff] at hv'
        rw [heq, hviol] at hv'
        cases hv'
      exact agentOps_disjoint hne op hop' hmem
    · obtain ⟨s', _, _, hop'⟩ := writeGeneratedSkillsGo_ops_mem _ _ op h
      rw [hbase] at hop' hmem
      exact agentOps_genSkillOps_disjoint base a s' op hmem hop'
    · obtain ⟨sd', _, _, hop'⟩ := writeSkillDirsGo_ops_mem _ _ op h
      simp only [skillDirOps, List.mem_cons, List.not_mem_nil, or_false] at hop'
      subst hop'
      simp [agentOps] at hmem
    · obtain ⟨f', _, _, hop'⟩ := writeSteeringGo_ops_mem _ _ op h
      rw [hbase] at hop' hmem
      exact agentOps_steeringOps_disjoint base a f' op hmem hop'
    · rw [hbase] at h hmem
      exact mcpOps_agentOps_disjoint base a _ _ op h hmem
  · -- unsafe generated-skill record
    intro s hs hviol
    refine ⟨writeKiroBundle_error_isSome root bundle existing
      (Or.inr (Or.inl (writeGeneratedSkillsGo_err_of_violation hs hviol))), ?_⟩
    intro op hop hmem
    rcases writeKiroBundle_ops_mem root bundle existing op hop with
      rfl | h | h | h | h | h
    · simp [generatedSkillOps] at hmem
    · obtain ⟨a', _, _, hop'⟩ := writeAgentsGo_ops_mem _ _ op h
      rw [hbase] at hop' hmem
      exact agentOps_genSkillOps_disjoint base a' s op hop' hmem
    · obtain ⟨s', _, hv', hop'⟩ := writeGeneratedSkillsGo_ops_mem _ _ op h
      have hne : s'.name ≠ s.name := by
        intro heq
        rw [validatePathSafe_none_iff] at hv'
        rw [heq, hviol] at hv'
        cases hv'
      exact generatedSkillOps_disjoint hne op hop' hmem
    · obtain ⟨sd', _, _, hop'⟩ := writeSkillDirsGo_ops_mem _ _ op h
      simp only [skillDirOps, List.mem_cons, List.not_mem_nil, or_false] at hop'
      subst hop'
      simp [generatedSkillOps] at hmem
    · obtain ⟨f', _, _, hop'⟩ := writeSteeringGo_ops_mem _ _ op h
      rw [hbase] at hop' hmem
      exact genSkillOps_steeringOps_disjoint base s f' op hmem hop'
    · rcases writeMcpSection_ops_mem _ _ _ op h with rfl | ⟨j, rfl⟩
      · simp [generatedSkillOps] at hmem
      · simp [generatedSkillOps] at hmem
  · -- unsafe pass-through skill-directory record
    intro sd hsd hviol
    refine ⟨writeKiroBundle_error_isSome root bundle existing
      (Or.inr (Or.inr (Or.inl (writeSkillDirsGo_err_of_violation hsd hviol)))), ?_⟩
    intro op hop hmem
    simp only [skillDirOps, List.mem_cons, List.not_mem_nil, or_false] at hmem
    subst hmem
    rcases writeKiroBundle_ops_mem root bundle existing _ hop with
      heq | h | h | h | h | h
    · cases heq
    · obtain ⟨a', _, _, hop'⟩ := writeAgentsGo_ops_mem _ _ _ h
      simp [agentOps] at hop'
    · obtain ⟨s', _, _, hop'⟩ := writeGeneratedSkillsGo_ops_mem _ _ _ h
      simp [generatedSkillOps] at hop'
    · obtain ⟨sd', _, hv', hop'⟩ := writeSkillDirsGo_ops_mem _ _ _ h
      have hne : sd'.name ≠ sd.name := by
        intro heq
        rw [validatePathSafe_none_iff] at hv'
        rw [heq, hviol] at hv'
        cases hv'
      exact skillDirOps_disjoint hne _ hop'
        (by simp [skillDirOps])
    · obtain ⟨f', _, _, hop'⟩ := writeSteeringGo_ops_mem _ _ _ h
      simp [steeringOps] at hop'
    · rcases writeMcpSection_ops_mem _ _ _ _ h with heq | ⟨j, heq⟩
      · cases heq
      · cases heq
  · -- unsafe steering record
    intro f hf hviol
    refine ⟨writeKiroBundle_error_isSome root bundle existing
      (Or.inr (Or.inr (Or.inr (writeSteeringGo_err_of_violation hf hviol)))), ?_⟩
    intro op hop hmem
    rcases writeKiroBundle_ops_mem root bundle existing op hop with
      rfl | h | h | h | h | h
    · simp [steeringOps] at hmem
    · obtain ⟨a', _, _, hop'⟩ := writeAgentsGo_ops_mem _ _ op h
      rw [hbase] at hop' hmem
      exact agentOps_steeringOps_disjoint base a' f op hop' hmem
    · obtain ⟨s', _, _, hop'⟩ := writeGeneratedSkillsGo_ops_mem _ _ op h
      rw [hbase] at hop' hmem
      exact genSkillOps_steeringOps_disjoint base s' f op hop' hmem
    · obtain ⟨sd', _, _, hop'⟩ := writeSkillDirsGo_ops_mem _ _ op h
      simp only [skillDirOps, List.mem_cons, List.not_mem_nil, or_false] at hop'
      subst hop'
      simp [steeringOps] at hmem
    · obtain ⟨f', _, hv', hop'⟩ := writeSteeringGo_ops_mem _ _ op h
      have hne : f'.name ≠ f.name := by
        intro heq
        rw [validatePathSafe_none_iff] at hv'
        rw [heq, hviol] at hv'
        cases hv'
      exact steeringOps_disjoint hne op hop' hmem
    · rcases writeMcpSection_ops_mem _ _ _ op h with rfl | ⟨j, rfl⟩
      · simp [steeringOps] at hmem
      · simp [steeringOps] at hmem

/-- The record for the C4 witness: an agent with a traversal token in its
identifier. -/
def agentC4 : KiroAgent :=
  { name := "../evil"
    config :=
      { name := "../evil"
        description := "d"
        prompt := "p"
        tools := ["*"]
        resources := []
        includeMcpJson := true
        welcomeMessage := "w" }
    promptContent := "x" }

def bundleC4 : KiroBundle :=
  { agents := [agentC4], generatedSkills := [], skillDirs := []
    steeringFiles := [], mcpServers := [] }

/-- Witness for C4: a bundle holding one path-unsafe agent record, by
applying the theorem. -/
theorem claim4_writer_path_safety_witness :
    ((writeKiroBundle ["out"] bundleC4 McpFileState.absent).error).isSome = true ∧
    ∀ op ∈ (writeKiroBundle ["out"] bundleC4 McpFileState.absent).ops,
      op ∉ agentOps (resolveKiroPaths ["out"]) agentC4 :=
  (claim4_writer_path_safety ["out"] bundleC4 McpFileState.absent).1 agentC4
    (List.mem_singleton.mpr rfl) (by decide)

/-! ## Claim C7: peer-reference selectivity of pass 5 -/

/-- Membership transfers along a verified prefix. -/
theorem mem_of_isPrefixOf {p l : List Char} (h : p.isPrefixOf l) {c : Char}
    (hc : c ∈ p) : c ∈ l :=
  ( List.isPrefixOf_iff_prefix.mp h).subset hc

/-- Lowercase ASCII letters are regex word characters. -/
theorem isWordChar_of_lower {c : Char} (h : isLowerAlpha c = true) :
    isWordChar c = true := by
  simp only [isLowerAlpha, Bool.and_eq_true, decide_eq_true_eq] at h
  have hl : c.isLower = true := by
    simp only [Char.isLower]
    simp only [Char.le_def] at h
    simp only [decide_eq_true_eq, Bool.and_eq_true]
    constructor
    · exact h.1
    · exact h.2
  simp [isWordChar, Char.isAlpha, hl]

/-- Every character of the remainder returned by taskPrefixSplit occurs in
the input. -/
theorem taskPrefixSplit_snd_sub {l : List Char} {c : Char}
    (hc : c ∈ (taskPrefixSplit l).2) : c ∈ l := by
  simp only [taskPrefixSplit] at hc
  split at hc
  next r2 heq =>
    have hc' : c ∈ r2.dropWhile isWsChar := hc
    have h1 : c ∈ ('-' :: r2) :=
      List.mem_cons_of_mem _ ((List.dropWhile_sublist _).subset hc')
    rw [← heq] at h1
    exact (List.dropWhile_sublist _).subset h1
  next =>
    exact (List.dropWhile_sublist _).subset hc

/-- A text containing no capital T cannot start a Task-call match. -/
theorem tryMatchTask_eq_none {l : List Char} (h : 'T' ∉ l) :
    tryMatchTask l = none := by
  cases hsp : taskPrefixSplit l with
  | mk pre r =>
    have hr : ("Task".data.isPrefixOf r) = false := by
      cases hp : "Task".data.isPrefixOf r with
      | false => rfl
      | true =>
        have hT : 'T' ∈ (taskPrefixSplit l).2 := by
          rw [hsp]
          exact mem_of_isPrefixOf hp (by decide)
        exact absurd (taskPrefixSplit_snd_sub hT) h
    simp only [tryMatchTask, hsp, hr]
    exact if_neg (by simp)

/-- Pass 1 is the identity on text containing no capital T. -/
theorem pass1Go_id : ∀ {l : List Char}, 'T' ∉ l →
    ∀ fuel b, pass1Go fuel b l = l := by
  intro l
  induction l with
  | nil =>
    intro _ fuel b
    cases fuel with
    | zero => rfl
    | succ fuel => rfl
  | cons c cs ih =>
    intro h fuel b
    cases fuel with
    | zero => rfl
    | succ fuel =>
      have hcs : 'T' ∉ cs := fun hm => h (List.mem_cons_of_mem _ hm)
      have hT : tryMatchTask (c :: cs) = none := tryMatchTask_eq_none h
      cases b with
      | false =>
        show c :: pass1Go fuel (c = '\n' || c = '\r') cs = c :: cs
        rw [ih hcs]
      | true =>
        have hstep : pass1Go (fuel + 1) true (c :: cs) =
            match tryMatchTask (c :: cs) with
            | some (pre, nm, args, rest) =>
              pre ++ "Use the use_subagent tool to delegate to the ".data
                ++ (normalizeName ⟨nm⟩).data ++ " agent: ".data ++ trimChars args
                ++ pass1Go fuel false rest
            | none => c :: pass1Go fuel (c = '\n' || c = '\r') cs := rfl
        rw [hstep, hT]
        show c :: pass1Go fuel (c = '\n' || c = '\r') cs = c :: cs
        rw [ih hcs]

/-- Pass 2a is the identity on text containing no tilde. -/
theorem pass2aGo_id : ∀ {l : List Char}, '~' ∉ l →
    ∀ fuel b, pass2aGo fuel b l = l := by
  intro l
  induction l with
  | nil =>
    intro _ fuel b
    cases fuel with
    | zero => rfl
    | succ fuel => rfl
  | cons c cs ih =>
    intro h fuel b
    cases fuel with
    | zero => rfl
    | succ fuel =>
      have hcs : '~' ∉ cs := fun hm => h (List.mem_cons_of_mem _ hm)
      have hpre : ("~/.claude/".data.isPrefixOf (c :: cs)) = false := by
        cases hp : "~/.claude/".data.isPrefixOf (c :: cs) with
        | false => rfl
        | true => exact absurd (mem_of_isPrefixOf hp (by decide)) h
      have hstep : pass2aGo (fuel + 1) b (c :: cs) =
          if b && "~/.claude/".data.isPrefixOf (c :: cs) then
            "~/.kiro/".data ++ pass2aGo fuel false ((c :: cs).drop 10)
          else c :: pass2aGo fuel (isWsChar c || isQuoteChar c) cs := rfl
      rw [hstep, hpre, Bool.and_false]
      show c :: pass2aGo fuel (isWsChar c || isQuoteChar c) cs = c :: cs
      rw [ih hcs]

/-- Pass 2b is the identity on text containing no dot. -/
theorem pass2bGo_id : ∀ {l : List Char}, '.' ∉ l →
    ∀ fuel b, pass2bGo fuel b l = l := by
  intro l
  induction l with
  | nil =>
    intro _ fuel b
    cases fuel with
    | zero => rfl
    | succ fuel => rfl
  | cons c cs ih =>
    intro h fuel b
    cases fuel with
    | zero => rfl
    | succ fuel =>
      have hcs : '.' ∉ cs := fun hm => h (List.mem_cons_of_mem _ hm)
      have hpre : (".claude/".data.isPrefixOf (c :: cs)) = false := by
        cases hp : ".claude/".data.isPrefixOf (c :: cs) with
        | false => rfl
        | true => exact absurd (mem_of_isPrefixOf hp (by decide)) h
      have hstep : pass2bGo (fuel + 1) b (c :: cs) =
          if b && ".claude/".data.isPrefixOf (c :: cs) then
            ".kiro/".data ++ pass2bGo fuel false ((c :: cs).drop 8)
          else c :: pass2bGo fuel (isWsChar c || isQuoteChar c) cs := rfl
      rw [hstep, hpre, Bool.and_false]
      show c :: pass2bGo fuel (isWsChar c || isQuoteChar c) cs = c :: cs
      rw [ih hcs]

/-- A text containing no slash cannot start a slash-reference match. -/
theorem tryMatchSlash_eq_none {l : List Char} (h : '/' ∉ l) :
    tryMatchSlash l = none := by
  have hsub : ∀ x ∈ (match l with
      | t :: r' => if t = backtickChar then r' else l
      | [] => l), x ∈ l := by
    cases l with
    | nil => intro x hx; exact hx
    | cons t r' =>
      by_cases ht : t = backtickChar
      · intro x hx
        have hx' : x ∈ (if t = backtickChar then r' else t :: r') := hx
        rw [if_pos ht] at hx'
        exact List.mem_cons_of_mem _ hx'
      · intro x hx
        have hx' : x ∈ (if t = backtickChar then r' else t :: r') := hx
        rw [if_neg ht] at hx'
        exact hx'
  simp only [tryMatchSlash]
  split
  next c0 c r2 heq =>
    have hc0 : c0 ∈ l := by
      apply hsub
      rw [heq]
      exact List.mem_cons_self _ _
    have hne : ¬(c0 = '/') := fun hc => h (by rw [← hc]; exact hc0)
    rw [if_neg (by simp [hne])]
  next => rfl

/-- Pass 3 is the identity on text containing no slash. -/
theorem pass3Go_id : ∀ {l : List Char}, '/' ∉ l →
    ∀ fuel b, pass3Go fuel b l = l := by
  intro l
  induction l with
  | nil =>
    intro _ fuel b
    cases fuel with
    | zero => rfl
    | succ fuel => rfl
  | cons c cs ih =>
    intro h fuel b
    cases fuel with
    | zero => rfl
    | succ fuel =>
      have hcs : '/' ∉ cs := fun hm => h (List.mem_cons_of_mem _ hm)
      have hS : tryMatchSlash (c :: cs) = none := tryMatchSlash_eq_none h
      cases b with
      | false =>
        show c :: pass3Go fuel (isWsChar c) cs = c :: cs
        rw [ih hcs]
      | true =>
        have hstep : pass3Go (fuel + 1) true (c :: cs) =
            match tryMatchSlash (c :: cs) with
            | some (nm, rest) =>
              "the ".data ++ (normalizeName ⟨nm⟩).data ++ " skill".data
                ++ pass3Go fuel false rest
            | none => c :: pass3Go fuel (isWsChar c) cs := rfl
        rw [hstep, hS]
        show c :: pass3Go fuel (isWsChar c) cs = c :: cs
        rw [ih hcs]

/-- A single pass-4 tool replacement is the identity when some character of
the tool key never occurs in the text. -/
theorem pass4oneGo_id {key val : List Char} {kc : Char} (hkc : kc ∈ key) :
    ∀ {l : List Char}, kc ∉ l → ∀ fuel b, pass4oneGo key val fuel b l = l := by
  intro l
  induction l with
  | nil =>
    intro _ fuel b
    cases fuel with
    | zero => rfl
    | succ fuel => rfl
  | cons c cs ih =>
    intro h fuel b
    cases fuel with
    | zero => rfl
    | succ fuel =>
      have hcs : kc ∉ cs := fun hm => h (List.mem_cons_of_mem _ hm)
      have hpre : (key.isPrefixOf (c :: cs)) = false := by
        cases hp : key.isPrefixOf (c :: cs) with
        | false => rfl
        | true => exact absurd (mem_of_isPrefixOf hp hkc) h
      have hstep : pass4oneGo key val (fuel + 1) b (c :: cs) =
          if b && key.isPrefixOf (c :: cs)
              && (match (c :: cs).drop key.length with
                  | c' :: _ => !isWordChar c'
                  | [] => true)
              && lookaheadToolTo ((c :: cs).drop key.length) then
            val ++ pass4oneGo key val fuel false ((c :: cs).drop key.length)
          else c :: pass4oneGo key val fuel (!isWordChar c) cs := rfl
      rw [hstep, hpre, Bool.and_false, Bool.false_and, Bool.false_and]
      show c :: pass4oneGo key val fuel (!isWordChar c) cs = c :: cs
      rw [ih hcs]

/-- Pass 4 is the identity on text containing none of the capital letters
that start the eight tool names. -/
theorem pass4_id {l : List Char} (hB : 'B' ∉ l) (hW : 'W' ∉ l) (hR : 'R' ∉ l)
    (hE : 'E' ∉ l) (hG : 'G' ∉ l) (hT : 'T' ∉ l) : pass4 l = l := by
  simp only [pass4, CLAUDE_TO_KIRO_TOOLS, List.foldl_cons, List.foldl_nil]
  rw [pass4oneGo_id (show 'B' ∈ "Bash".data by decide) hB,
    pass4oneGo_id (show 'W' ∈ "Write".data by decide) hW,
    pass4oneGo_id (show 'R' ∈ "Read".data by decide) hR,
    pass4oneGo_id (show 'E' ∈ "Edit".data by decide) hE,
    pass4oneGo_id (show 'G' ∈ "Glob".data by decide) hG,
    pass4oneGo_id (show 'G' ∈ "Grep".data by decide) hG,
    pass4oneGo_id (show 'W' ∈ "WebFetch".data by decide) hW,
    pass4oneGo_id (show 'T' ∈ "Task".data by decide) hT]

/-- Pass 5 is the identity on text containing no at-sign. -/
theorem pass5Go_id {names : List String} : ∀ {l : List Char}, '@' ∉ l →
    ∀ fuel, pass5Go names fuel l = l := by
  intro l
  induction l with
  | nil =>
    intro _ fuel
    cases fuel with
    | zero => rfl
    | succ fuel => rfl
  | cons c cs ih =>
    intro h fuel
    cases fuel with
    | zero => rfl
    | succ fuel =>
      have hcs : '@' ∉ cs := fun hm => h (List.mem_cons_of_mem _ hm)
      have hc : ¬(c = '@') := fun hceq => h (List.mem_cons.mpr (Or.inl hceq.symm))
      have hstep : pass5Go names (fuel + 1) (c :: cs) =
          if c = '@' then
            match tryNames names cs with
            | some (n, after) =>
              "the ".data ++ (normalizeName n).data ++ " agent".data
                ++ pass5Go names fuel after
            | none => c :: pass5Go names fuel cs
          else c :: pass5Go names fuel cs := rfl
      rw [hstep, if_neg hc]
      rw [ih hcs]

/-- With the single known peer "reviewer", the alternation finds no match
after the at-sign when the mentioned word is a different all-lowercase
identifier followed by a space. -/
theorem tryNames_reviewer_none (w : String) (hw : ¬ w = "reviewer")
    (h2 : ∀ c ∈ w.data, isLowerAlpha c = true) :
    tryNames ["reviewer"] (w.data ++ " please check".data) = none := by
  have hstep : tryNames ["reviewer"] (w.data ++ " please check".data) =
      if "reviewer".data.isPrefixOf (w.data ++ " please check".data) then
        if boundaryAfter ((("reviewer".data).getLast?).getD '@')
            ((w.data ++ " please check".data).drop "reviewer".data.length) then
          some ("reviewer",
            (w.data ++ " please check".data).drop "reviewer".data.length)
        else tryNames [] (w.data ++ " please check".data)
      else tryNames [] (w.data ++ " please check".data) := rfl
  rw [hstep]
  cases hp : "reviewer".data.isPrefixOf (w.data ++ " please check".data) with
  | false => simp [tryNames]
  | true =>
    rw [if_pos rfl]
    obtain ⟨t, ht⟩ := List.isPrefixOf_iff_prefix.mp hp
    have hdrop : (w.data ++ " please check".data).drop "reviewer".data.length
        = t := by
      rw [← ht]
      exact List.drop_left _ _
    rcases List.append_eq_append_iff.mp ht with ⟨a', hwa, hta⟩ | ⟨c', hrev, hlit⟩
    · cases a' with
      | nil =>
        rw [List.append_nil] at hwa
        exact absurd (string_data_inj hwa) hw
      | cons c0 a'' =>
        have hc0w : c0 ∈ w.data := by
          rw [hwa]
          exact List.mem_append_right _ (List.mem_cons_self _ _)
        have hwc : isWordChar c0 = true := isWordChar_of_lower (h2 c0 hc0w)
        have hb : boundaryAfter ((("reviewer".data).getLast?).getD '@')
            ((w.data ++ " please check".data).drop "reviewer".data.length)
            = false := by
          rw [hdrop, hta, List.cons_append]
          show (isWordChar 'r' != isWordChar c0) = false
          rw [hwc]
          decide
        rw [hb]
        simp [tryNames]
    · cases c' with
      | nil =>
        rw [List.append_nil] at hrev
        exact absurd (string_data_inj hrev.symm) hw
      | cons c0 c'' =>
        exfalso
        have h1 : (' ' :: "please check".data : List Char) = c0 :: (c'' ++ t) := by
          rw [← List.cons_append]
          exact hlit
        injection h1 with hcsp hrest2
        have hsp : c0 ∈ "reviewer".data := by
          rw [hrev]
          exact List.mem_append_right _ (List.mem_cons_self _ _)
        rw [← hcsp] at hsp
        exact absurd hsp (by decide)

/-- Pass 5 leaves an at-mention of an unknown lowercase peer verbatim. -/
theorem pass5_at_mention (w : String) (hw : ¬ w = "reviewer")
    (h2 : ∀ c ∈ w.data, isLowerAlpha c = true) :
    pass5 ["reviewer"] ('@' :: (w.data ++ " please check".data))
      = '@' :: (w.data ++ " please check".data) := by
  have hat : '@' ∉ (w.data ++ " please check".data) := by
    intro hm
    rcases List.mem_append.mp hm with hmw | hml
    · exact absurd (h2 _ hmw) (by decide)
    · revert hml
      decide
  have hne : (["reviewer"] : List String) ≠ [] := by simp
  simp only [pass5]
  rw [if_neg hne]
  have hstep5 : pass5Go ["reviewer"]
      (('@' :: (w.data ++ " please check".data)).length + 1)
      ('@' :: (w.data ++ " please check".data)) =
      if '@' = '@' then
        match tryNames ["reviewer"] (w.data ++ " please check".data) with
        | some (n, after) =>
          "the ".data ++ (normalizeName n).data ++ " agent".data
            ++ pass5Go ["reviewer"]
                (('@' :: (w.data ++ " please check".data)).length)
                after
        | none => '@' :: pass5Go ["reviewer"]
            (('@' :: (w.data ++ " please check".data)).length)
            (w.data ++ " please check".data)
      else '@' :: pass5Go ["reviewer"]
          (('@' :: (w.data ++ " please check".data)).length)
          (w.data ++ " please check".data) := rfl
  rw [hstep5, if_pos rfl, tryNames_reviewer_none w hw h2]
  show '@' :: pass5Go ["reviewer"]
      (('@' :: (w.data ++ " please check".data)).length)
      (w.data ++ " please check".data)
    = '@' :: (w.data ++ " please check".data)
  rw [pass5Go_id hat]

/-- C7: an at-mention is rewritten into "the name agent" prose exactly when
the mentioned name is a member of knownPeerNames, and is left verbatim
otherwise: with knownPeerNames = ["reviewer"], the body "@w please check"
for any nonempty all-lowercase word w transforms to
"the reviewer agent please check" when w = "reviewer" and is returned
unchanged for every other w. -/
theorem claim7_peer_reference_selectivity (w : String) (h1 : w.data ≠ [])
    (h2 : ∀ c ∈ w.data, isLowerAlpha c = true) :
    transformContentForKiro ("@" ++ w ++ " please check") ["reviewer"] =
      if w = "reviewer" then "the reviewer agent please check"
      else "@" ++ w ++ " please check" := by
  by_cases hw : w = "reviewer"
  · subst hw
    rw [if_pos rfl]
    decide
  · rw [if_neg hw]
    have hdata : ("@" ++ w ++ " please check").data
        = '@' :: (w.data ++ " please check".data) := rfl
    have hnotin : ∀ x : Char, ¬(x = '@') → isLowerAlpha x = false →
        ¬(x = ' ') → x ∉ ("@" ++ w ++ " please check").data := by
      intro x ha hl hs hmem
      rw [hdata] at hmem
      rcases List.mem_cons.mp hmem with h | h
      · exact ha h
      rcases List.mem_append.mp h with hcw | hcl
      · rw [h2 x hcw] at hl
        exact absurd hl (by decide)
      · have hd : (" please check".data : List Char)
            = [' ', 'p', 'l', 'e', 'a', 's', 'e', ' ', 'c', 'h', 'e', 'c', 'k'] := rfl
        rw [hd] at hcl
        simp only [List.mem_cons, List.not_mem_nil, or_false] at hcl
        rcases hcl with rfl | rfl | rfl | rfl | rfl | rfl | rfl | rfl | rfl | rfl | rfl | rfl | rfl <;>
          first
          | exact hs rfl
          | exact absurd hl (by decide)
    have hT := hnotin 'T' (by decide) (by decide) (by decide)
    have hp1 : pass1 ("@" ++ w ++ " please check").data
        = ("@" ++ w ++ " please check").data := by
      simp only [pass1]
      exact pass1Go_id hT _ _
    have hp2a : pass2a ("@" ++ w ++ " please check").data
        = ("@" ++ w ++ " please check").data := by
      simp only [pass2a]
      exact pass2aGo_id (hnotin '~' (by decide) (by decide) (by decide)) _ _
    have hp2b : pass2b ("@" ++ w ++ " please check").data
        = ("@" ++ w ++ " please check").data := by
      simp only [pass2b]
      exact pass2bGo_id (hnotin '.' (by decide) (by decide) (by decide)) _ _
    have hp3 : pass3 ("@" ++ w ++ " please check").data
        = ("@" ++ w ++ " please check").data := by
      simp only [pass3]
      exact pass3Go_id (hnotin '/' (by decide) (by decide) (by decide)) _ _
    have hp4 : pass4 ("@" ++ w ++ " please check").data
        = ("@" ++ w ++ " please check").data :=
      pass4_id (hnotin 'B' (by decide) (by decide) (by decide))
        (hnotin 'W' (by decide) (by decide) (by decide))
        (hnotin 'R' (by decide) (by decide) (by decide))
        (hnotin 'E' (by decide) (by decide) (by decide))
        (hnotin 'G' (by decide) (by decide) (by decide)) hT
    have hp5 : pass5 ["reviewer"] ("@" ++ w ++ " please check").data
        = ("@" ++ w ++ " please check").data := by
      rw [hdata]
      exact pass5_at_mention w hw h2
    simp only [transformContentForKiro]
    rw [hp1, hp2a, hp2b, hp3, hp4, hp5]

/-- Witness for claim7_peer_reference_selectivity: the hypotheses hold and
the conclusion evaluates at the concrete unknown peer word "unknown". -/
theorem claim7_peer_reference_selectivity_witness :
    ("unknown".data ≠ [] ∧ (∀ c ∈ "unknown".data, isLowerAlpha c = true)) ∧
      transformContentForKiro ("@" ++ "unknown" ++ " please check") ["reviewer"] =
        (if "unknown" = "reviewer" then "the reviewer agent please check"
         else "@" ++ "unknown" ++ " please check") :=
  ⟨⟨by decide, by decide⟩,
    claim7_peer_reference_selectivity "unknown" (by decide) (by decide)⟩
